import Mathlib

set_option autoImplicit false
set_option maxHeartbeats 1000000

/-!
Verification of the techlag similarity-search and diff-aggregation engine
(`src/techlag/gitlag.py`) against its natural-language specification.

The development shallowly embeds the two cores of the module:

* the recursive tree comparator (`BaseDir.compare_files`, `BaseDir.count_files`,
  `BaseDir.count_diff`, `BaseDir._compare_dirs`, `BaseDir.compare`), and
* the commit-search engine (`Metrics.commit_metrics`, `Metrics.range_metrics`,
  `Metrics.closest_range`, `Metrics.closest_commit`), plus the
  checkout-to-store logic (`Repo.checkout`, `Metrics.compare_checkouts`).

File contents are modelled as lists of lines; a directory tree is a finite
tree of named files and named subdirectories.  Python `dict`s keyed by metric
name are modelled as association lists `List (String × Nat)`, Python's
`self.metrics` dict (sequence number → metrics record) as an association list
kept sorted by key (Python reads it only through `sorted(self.metrics)` and
membership tests, so a key-sorted association list is observationally the
same).  Exceptions are modelled with `Option`/`Except`.
-/

/-- Lines of a text file, as produced by iterating over an opened file with
permissive (`surrogateescape`) decoding: an opaque list of line strings. -/
abbrev FileLines := List String

/-- A directory tree: the regular files at this level (name, lines) and the
subdirectories (name, subtree).  Models the directories handled by `BaseDir`. -/
inductive DTree : Type where
  | node (files : List (String × FileLines)) (dirs : List (String × DTree)) : DTree

/-- Files at the top level of a tree. -/
def DTree.files : DTree → List (String × FileLines)
  | .node fs _ => fs

/-- Subdirectories at the top level of a tree. -/
def DTree.dirs : DTree → List (String × DTree)
  | .node _ ds => ds

/-- First-match association-list lookup (Python `dict` access / `os` lookups). -/
def alookup {α : Type} : List (String × α) → String → Option α
  | [], _ => none
  | (k, v) :: rest, n => if k = n then some v else alookup rest n

/-- All entry names of the top level of a directory, files then directories
(the order is irrelevant: only counts and membership are ever used). -/
def DTree.names (t : DTree) : List String :=
  t.files.map (·.1) ++ t.dirs.map (·.1)

/-- Content of the regular file `n` at the top level of `t`, if present. -/
def fileContent (t : DTree) (n : String) : Option FileLines :=
  alookup t.files n

/-- Subdirectory `n` at the top level of `t`, if present. -/
def subTree (t : DTree) (n : String) : Option DTree :=
  alookup t.dirs n

/-- `filecmp.dircmp.left_only`: names present in the left listing only. -/
def leftOnlyNames (l r : DTree) : List String :=
  l.names.filter (fun n => ¬ n ∈ r.names)

/-- `filecmp.dircmp.right_only`: names present in the right listing only. -/
def rightOnlyNames (l r : DTree) : List String :=
  r.names.filter (fun n => ¬ n ∈ l.names)

/-- `filecmp.dircmp.common_files`: names that are regular files in both trees. -/
def commonFileNames (l r : DTree) : List String :=
  (l.files.map (·.1)).filter (fun n => (fileContent r n).isSome)

/-- `filecmp.dircmp.same_files`: common files whose contents coincide.
`dircmp` uses `filecmp.cmpfiles`; equal stat signatures with equal content is
modelled as content equality. -/
def sameFileNames (l r : DTree) : List String :=
  (commonFileNames l r).filter (fun n => fileContent l n = fileContent r n)

/-- `filecmp.dircmp.diff_files`: common files whose contents differ. -/
def diffFileNames (l r : DTree) : List String :=
  (commonFileNames l r).filter (fun n => ¬ fileContent l n = fileContent r n)

/-- Number of lines `BaseDir.count_files` counts for entry `n` of tree `t`:
the line count when `n` is a regular file (`os.path.isfile`), else `0`
(non-files are silently skipped by the `isfile` guard). -/
def lineCountOf (t : DTree) (n : String) : Nat :=
  match fileContent t n with
  | some c => c.length
  | none => 0

/-- `BaseDir.count_files(dir, files)`: `(len(files), total lines)`.  Every name
in the list is counted as a file (`num_files = len(files)`); lines are summed
only over names that are regular files.  The in-memory line cache of the
Python code only short-circuits re-reading a file and never changes the
counted value, so it is not modelled. -/
def count_files (t : DTree) (names : List String) : Nat × Nat :=
  (names.length, (names.map (lineCountOf t)).sum)

/-- Length of a longest common subsequence of two line lists. -/
def lcsLen : List String → List String → Nat
  | [], _ => 0
  | _ :: _, [] => 0
  | a :: as_, b :: bs =>
    if a = b then lcsLen as_ bs + 1
    else max (lcsLen (a :: as_) bs) (lcsLen as_ (b :: bs))
termination_by l r => l.length + r.length

/-- `BaseDir.compare_files`.  The line counting is done in the source by
`difflib.Differ` (an external library, not part of this repository).
Modelled from the spec: §4.2 specifies a line-oriented,
longest-common-subsequence-style alignment in which aligned identical lines
count as `equal`, lines present only on the right as `added`, and lines
present only on the left as `removed`.  The `different` flag
(`1 if added + removed > 0 else 0`) is translated from the source. -/
def compare_files (cl cr : FileLines) : Nat × Nat × Nat × Nat :=
  let equal := lcsLen cl cr
  let added := cr.length - equal
  let removed := cl.length - equal
  let different := if 0 < added + removed then 1 else 0
  (different, added, removed, equal)

/-- `BaseDir.count_diff`: total `(diff_files, added, removed, equal)` over a
list of files present in both directories. -/
def count_diff (l r : DTree) (files : List String) : Nat × Nat × Nat × Nat :=
  match files with
  | [] => (0, 0, 0, 0)
  | f :: rest =>
    let c := compare_files ((fileContent l f).getD []) ((fileContent r f).getD [])
    let s := count_diff l r rest
    (s.1 + c.1, s.2.1 + c.2.1, s.2.2.1 + c.2.2.1, s.2.2.2 + c.2.2.2)

/-- The numeric fields of one `_compare_dirs` metrics record.  The Python
code computes the `left/right` group only when the `'diff'` kind is enabled
and the `same` group only when `'same'` is enabled; the computations are pure
and independent, so the model always computes all fields and the dictionary
builder `BaseDir.compare` below emits only the fields of the enabled kinds,
which yields the same dictionary as the source. -/
structure DirM where
  left_files : Nat
  left_lines : Nat
  right_files : Nat
  right_lines : Nat
  same_files : Nat
  same_lines : Nat
  diff_files : Nat
  added_lines : Nat
  removed_lines : Nat
  equal_lines : Nat
deriving DecidableEq, Repr

/-- Field-wise addition: the `m[metric] += value` accumulation of
`_compare_dirs`. -/
def DirM.add (x y : DirM) : DirM :=
  ⟨x.left_files + y.left_files, x.left_lines + y.left_lines,
   x.right_files + y.right_files, x.right_lines + y.right_lines,
   x.same_files + y.same_files, x.same_lines + y.same_lines,
   x.diff_files + y.diff_files, x.added_lines + y.added_lines,
   x.removed_lines + y.removed_lines, x.equal_lines + y.equal_lines⟩

instance : Zero DirM := ⟨⟨0, 0, 0, 0, 0, 0, 0, 0, 0, 0⟩⟩

instance : Add DirM := ⟨DirM.add⟩

/-- Sum of a list of metrics records (left fold of the field-wise sum). -/
def DirM.sum (l : List DirM) : DirM :=
  l.foldr DirM.add 0

/-- The metrics of a single directory level (no recursion): the
`left_only`/`right_only`/`same_files` counts and the `count_diff` totals,
exactly the assignments at the top of `_compare_dirs`. -/
def levelM (l r : DTree) : DirM :=
  let lo := count_files l (leftOnlyNames l r)
  let ro := count_files r (rightOnlyNames l r)
  let sa := count_files l (sameFileNames l r)
  let di := count_diff l r (diffFileNames l r)
  ⟨lo.1, lo.2, ro.1, ro.2, sa.1, sa.2, di.1, di.2.1, di.2.2.1, di.2.2.2⟩

mutual
/-- `BaseDir._compare_dirs`: metrics of the current level plus the summed
metrics of every common subdirectory (`dcmp.subdirs`), recursively. -/
def compare_dirs (l r : DTree) : DirM :=
  levelM l r + compare_subdirs l.dirs r.dirs
termination_by sizeOf l
decreasing_by
  all_goals cases l
  all_goals simp [DTree.dirs]

/-- The recursion of `_compare_dirs` over `dcmp.subdirs`: for every
subdirectory of the left tree that also exists (as a directory) in the right
tree, recurse and add every numeric field into the parent record. -/
def compare_subdirs (ls : List (String × DTree)) (rs : List (String × DTree)) : DirM :=
  match ls with
  | [] => 0
  | (n, tl) :: rest =>
    (match alookup rs n with
     | some tr => compare_dirs tl tr
     | none => 0) + compare_subdirs rest rs
termination_by sizeOf ls
decreasing_by
  all_goals simp
  all_goals omega
end

/-- Well-formed directory tree: entry names at every level are distinct
(as on a real filesystem) — recursively. -/
inductive DTree.Wf : DTree → Prop where
  | node : ∀ (fs : List (String × FileLines)) (ds : List (String × DTree)),
      (DTree.node fs ds).names.Nodup →
      (∀ p ∈ ds, DTree.Wf p.2) →
      DTree.Wf (.node fs ds)

/-- Dictionary lookup for metric-name dictionaries. -/
def mlookup (m : List (String × Nat)) (k : String) : Option Nat :=
  alookup m k

/-- Python `m[metric]` on a metrics dictionary.  A missing key raises
`KeyError` in Python; the search engine is only ever run with metric names
that its own `compare` emits, and the model defaults to `0`. -/
def mlookupD (m : List (String × Nat)) (k : String) : Nat :=
  (mlookup m k).getD 0

/-- `BaseDir.compare`: the flat name→count dictionary: the per-kind groups of
`_compare_dirs` and the four always-present fields, followed by the derived
summary fields, computed once from the top-level record (never summed per
subtree). -/
def BaseDir.compare (kinds : List String) (base target : DTree) : List (String × Nat) :=
  let M := compare_dirs base target
  (if "diff" ∈ kinds then
    [("left_files", M.left_files), ("left_lines", M.left_lines),
     ("right_files", M.right_files), ("right_lines", M.right_lines)]
   else [])
  ++ (if "same" ∈ kinds then
       [("same_files", M.same_files), ("same_lines", M.same_lines)]
      else [])
  ++ [("diff_files", M.diff_files), ("added_lines", M.added_lines),
      ("removed_lines", M.removed_lines), ("equal_lines", M.equal_lines)]
  ++ (if "diff" ∈ kinds then
       [("different_files", (M.left_files + M.right_files) / 2 + M.diff_files),
        ("different_lines",
          (M.left_lines + M.right_lines + M.added_lines + M.removed_lines) / 2)]
      else [])
  ++ (if "same" ∈ kinds then
       [("common_files", M.same_files), ("common_lines", M.same_lines + M.equal_lines)]
      else [])

/-- Transposition of a metrics record: swap the left/right groups and the
added/removed totals.  Used to state the left-right symmetry of `compare`. -/
def DirM.transpose (m : DirM) : DirM :=
  ⟨m.right_files, m.right_lines, m.left_files, m.left_lines,
   m.same_files, m.same_lines,
   m.diff_files, m.removed_lines, m.added_lines, m.equal_lines⟩

/-! ### The tree walk in the presence of unreadable files

`BaseDir.compare_files` opens both files with no exception handling; if a
file listed as common has vanished between the directory listing and the
`open` call, the `OSError` propagates through `count_diff` and
`_compare_dirs` and aborts the whole comparison.  The variants below make
that explicit: a file read yields `none` when the file cannot be opened, and
`none` (the in-flight exception) short-circuits every caller. -/

/-- `BaseDir.compare_files` when either `open` may fail: `none` models the
uncaught `OSError`. -/
def compare_files_exc (left right : Option FileLines) : Option (Nat × Nat × Nat × Nat) :=
  match left, right with
  | some cl, some cr => some (compare_files cl cr)
  | _, _ => none

/-- `BaseDir.count_diff` with fallible reads (`readL`/`readR` return the
lines of a file, or `none` if it cannot be opened).  An exception raised for
any file in the list propagates out of the loop: no totals are produced. -/
def count_diff_exc (readL readR : String → Option FileLines) (files : List String) :
    Option (Nat × Nat × Nat × Nat) :=
  match files with
  | [] => some (0, 0, 0, 0)
  | f :: rest =>
    match compare_files_exc (readL f) (readR f) with
    | none => none
    | some c =>
      match count_diff_exc readL readR rest with
      | none => none
      | some s => some (s.1 + c.1, s.2.1 + c.2.1, s.2.2.1 + c.2.2.1, s.2.2.2 + c.2.2.2)

/-! ### The commit-search engine (`Metrics`) -/

/-- One commit of the upstream repository as seen by the engine: the
metadata held in `Repo.commits` (hash, commit date), whether `git checkout`
of this commit succeeds (`subprocess.call`'s exit status, which the source
ignores), and the working-tree contents after a successful checkout. -/
structure GCommit where
  hash : String
  date : String
  ok : Bool
  tree : DTree

/-- A `Metrics` object together with its external collaborators: the base
directory being compared, the metric kinds, the commit list of the `Repo`,
and the initial contents of the repository working directory (`repo.dir`). -/
structure MetricsObj where
  basedir : DTree
  kinds : List String
  commits : List GCommit
  workdir0 : DTree

/-- The mutable state of one search run: the current contents of the shared
working directory `repo.dir`, the memoization dictionary `self.metrics`
(sequence number → metrics record, kept sorted by key), and the number of
`git checkout` subprocesses issued so far (observable effect counter). -/
structure SearchState where
  workdir : DTree
  metrics : List (Nat × List (String × Nat))
  checkouts : Nat

/-- Lookup in the memoization dictionary (`self.metrics[s]` / `s in self.metrics`). -/
def dictAt (m : List (Nat × List (String × Nat))) (s : Nat) : Option (List (String × Nat)) :=
  match m with
  | [] => none
  | (k, d) :: rest => if k = s then some d else dictAt rest s

/-- Key-ordered insertion into the memoization dictionary.  Python's dict is
read only through `sorted(self.metrics)` and key lookups, so a key-sorted
association list is observationally identical. -/
def sortedInsert (m : List (Nat × List (String × Nat))) (s : Nat) (d : List (String × Nat)) :
    List (Nat × List (String × Nat)) :=
  match m with
  | [] => [(s, d)]
  | (k, d') :: rest =>
    if s < k then (s, d) :: (k, d') :: rest else (k, d') :: sortedInsert rest s d

/-- Placeholder commit for an out-of-range index (Python would raise
`IndexError`; the engine only ever samples in range). -/
def defaultGCommit : GCommit := ⟨"", "", true, .node [] []⟩

/-- `Metrics.commit_metrics`: run `git checkout` for the commit (the exit
status of the subprocess is ignored by the source — on failure the working
directory simply keeps its previous contents), compare the base directory
with the working directory, and extend the record with the commit number.
The `commit` hash and `date` entries of the Python dictionary are strings
and are read again from `self.commits` where needed, so they are not part
of the numeric record. -/
def commit_metrics (M : MetricsObj) (st : SearchState) (seq : Nat) :
    List (String × Nat) × SearchState :=
  let c := M.commits.getD seq defaultGCommit
  let wd := if c.ok then c.tree else st.workdir
  let m := BaseDir.compare M.kinds M.basedir wd ++ [("commit_no", seq)]
  (m, { workdir := wd, metrics := st.metrics, checkouts := st.checkouts + 1 })

/-- Python `list(range(first, last, step))` for naturals and `step ≥ 1`:
`[first, first+step, …)` strictly below `last`. -/
def pyRange (first last step : Nat) : List Nat :=
  List.range' first ((last - first + step - 1) / step) step

/-- The body of the `range_metrics` loop for a single sequence number:
skip it if already memoized, else compute `commit_metrics` and store the
record under the sequence number. -/
def rm_step (M : MetricsObj) (st : SearchState) (seq : Nat) : SearchState :=
  if (dictAt st.metrics seq).isSome then st
  else
    let r := commit_metrics M st seq
    { workdir := r.2.workdir,
      metrics := sortedInsert r.2.metrics seq r.1,
      checkouts := r.2.checkouts }

/-- `Metrics.range_metrics`: evaluate (and memoize) every not-yet-memoized
commit at `first, first+step, …` below `last`, plus `last` itself. -/
def range_metrics (M : MetricsObj) (first last step : Nat) (st : SearchState) : SearchState :=
  (pyRange first last step ++ [last]).foldl (rm_step M) st

/-- The extremizing function of the search: Python passes `min` or `max` as
`closest_fn`. -/
inductive CFn where
  | cmin : CFn
  | cmax : CFn
deriving DecidableEq, Repr

/-- Python `closest_fn([value, farthest]) == value`: for `min` this holds iff
`value ≤ farthest` (ties return the first element), for `max` iff
`value ≥ farthest`. -/
def closerEq (fn : CFn) (value farthest : Nat) : Bool :=
  match fn with
  | .cmin => decide (value ≤ farthest)
  | .cmax => decide (farthest ≤ value)

/-- Python `min(l)` / `max(l)` on a nonempty list (value only; `0` for the
empty list, on which Python would raise). -/
def pyFold (f : Nat → Nat → Nat) : List Nat → Nat
  | [] => 0
  | v :: rest => rest.foldl f v

/-- The value `closest_fn(values)` selects. -/
def closestVal (fn : CFn) (l : List Nat) : Nat :=
  match fn with
  | .cmin => pyFold min l
  | .cmax => pyFold max l

/-- The value `farthest_fn(values)` selects (the opposite extremizer). -/
def farthestVal (fn : CFn) (l : List Nat) : Nat :=
  match fn with
  | .cmin => pyFold max l
  | .cmax => pyFold min l

/-- Python `l.index(v)`: index of the first occurrence (length if absent;
Python would raise `ValueError`, never exercised by the source). -/
def idxOfN (l : List Nat) (v : Nat) : Nat :=
  match l with
  | [] => 0
  | w :: rest => if w = v then 0 else idxOfN rest v + 1

/-- One iteration of the band-building loop of `Metrics.closest_range` over
the pair `(commit_no, value)`: append while fewer than `length+1` entries are
held; afterwards, if the new value is at least as close as the farthest held
value, drop the first occurrence of that farthest value and append the new
entry at the right. -/
def band_step (fn : CFn) (length : Nat) (vi : List Nat × List Nat) (p : Nat × Nat) :
    List Nat × List Nat :=
  let values := vi.1
  let indexes := vi.2
  if values.length ≤ length then (values ++ [p.2], indexes ++ [p.1])
  else
    let farthest := farthestVal fn values
    if closerEq fn p.2 farthest then
      let j := idxOfN values farthest
      (values.eraseIdx j ++ [p.2], indexes.eraseIdx j ++ [p.1])
    else (values, indexes)

/-- The band-building loop of `Metrics.closest_range`, over the memoized
commits in increasing sequence order. -/
def bandFold (fn : CFn) (length : Nat) (pairs : List (Nat × Nat)) : List Nat × List Nat :=
  pairs.foldl (band_step fn length) ([], [])

/-- The band-and-extension part of `Metrics.closest_range`: the
`(values, indexes)` lists after the band-building loop and the two
"add next computed checkout on the left and on the right" extensions. -/
def closest_range_ext (metrics : List (Nat × List (String × Nat))) (length : Nat)
    (metric : String) (fn : CFn) : List Nat × List Nat :=
  let seq_commits := metrics.map (·.1)
  let pairs := metrics.map (fun p => (p.1, mlookupD p.2 metric))
  let vi := bandFold fn length pairs
  let vi2 :=
    if seq_commits.headD 0 < vi.2.headD 0 then
      let left_seq := seq_commits.getD (idxOfN seq_commits (vi.2.headD 0) - 1) 0
      (mlookupD ((dictAt metrics left_seq).getD []) metric :: vi.1, left_seq :: vi.2)
    else vi
  if vi2.2.getLastD 0 < seq_commits.getLastD 0 then
    let right_seq := seq_commits.getD (idxOfN seq_commits (vi2.2.getLastD 0) + 1) 0
    (vi2.1 ++ [mlookupD ((dictAt metrics right_seq).getD []) metric], vi2.2 ++ [right_seq])
  else vi2

/-- `Metrics.closest_range`: build the band of the `length+1` closest
memoized commits, extend it on each side by the neighbouring memoized commit
when it does not already touch the first/last memoized commit, and return
`(lowest, highest, closest commit, closest value)`.  Out-of-range accesses
(possible only for an empty memoization dictionary, where Python would raise
`IndexError`) default to `0`. -/
def closest_range (metrics : List (Nat × List (String × Nat))) (length : Nat)
    (metric : String) (fn : CFn) : Nat × Nat × Nat × Nat :=
  let vi3 := closest_range_ext metrics length metric fn
  let cv := closestVal fn vi3.1
  let ci := vi3.2.getD (idxOfN vi3.1 cv) 0
  (vi3.2.headD 0, vi3.2.getLastD 0, ci, cv)

/-- Ceiling division `-(-a // b)` as used by `Metrics.closest_commit`. -/
def ceilDiv (a b : Nat) : Nat :=
  (a + b - 1) / b

/-- The step update at the bottom of the `closest_commit` loop (for
`step ≠ 1`): `candidate_step = ceil((right-left+1)/ratio)`; keep `step // 2`
when `candidate_step >= step // 2` and `step // 2 >= 1`, else take
`candidate_step`. -/
def next_step (ratio left right step : Nat) : Nat :=
  let candidate_step := ceilDiv (right - left + 1) ratio
  if step / 2 ≤ candidate_step ∧ 1 ≤ step / 2 then step / 2 else candidate_step

/-- The step update as worded by the specification (and claim C3): keep
`step / 2` when the halved value is still at least `candidate_step` (and at
least 1), else take `candidate_step`.  This definition follows the spec's
words, for comparison with `next_step`, which is translated from the
source. -/
def next_step_spec (ratio left right step : Nat) : Nat :=
  let candidate_step := ceilDiv (right - left + 1) ratio
  if candidate_step ≤ step / 2 ∧ 1 ≤ step / 2 then step / 2 else candidate_step

/-- The Python runtime errors `closest_commit` can actually raise.  The
specification's `EmptyHistory` condition is included so that the claims
about it are statable; the translated code never produces it. -/
inductive PyError where
  | unboundLocal : String → PyError
  | emptyHistory : PyError
deriving DecidableEq, Repr

/-- The result record of `Metrics.closest_commit`. -/
structure MostSimilar where
  sequence : Nat
  diff : Nat
  hash : String
  date : String
deriving DecidableEq, Repr

/-- The `while step >= 1` loop of `Metrics.closest_commit`.  Returns the
final state and the `(closest_seq, closest_value)` of the last iteration;
`none` when the loop body never ran, in which case `closest_seq` is an
unbound Python local. -/
def cc_loop (M : MetricsObj) (ratio length : Nat) (metric : String) (fn : CFn)
    (left right step : Nat) (st : SearchState) : SearchState × Option (Nat × Nat) :=
  if _h : 1 ≤ step then
    let st' := range_metrics M left right step st
    let c := closest_range st'.metrics length metric fn
    if step = 1 then (st', some (c.2.2.1, c.2.2.2))
    else cc_loop M ratio length metric fn c.1 c.2.1 (next_step ratio c.1 c.2.1 step) st'
  else (st, none)
termination_by step
decreasing_by
  unfold next_step
  simp only
  split
  · omega
  · rename_i hcond
    have h1 : 1 ≤ step / 2 := by omega
    have : ¬ step / 2 ≤ ceilDiv (c.2.1 - c.1 + 1) ratio := by tauto
    omega

/-- `Metrics.closest_commit`: initialize `left = 0`, `right = N-1`,
`step = ceil(N/ratio)`, run the narrowing loop, and build the result record
from the best memoized commit.  When the loop never ran (empty commit list),
the Python source raises `UnboundLocalError` at `self.commits[closest_seq]`.
The `dump_csv` call of the source only logs and is not modelled. -/
def closest_commit (M : MetricsObj) (ratio length : Nat) (metric : String) (fn : CFn) :
    SearchState × Except PyError MostSimilar :=
  let N := M.commits.length
  let step := ceilDiv N ratio
  let st0 : SearchState := { workdir := M.workdir0, metrics := [], checkouts := 0 }
  match cc_loop M ratio length metric fn 0 (N - 1) step st0 with
  | (st, some c) =>
    let cm := M.commits.getD c.1 defaultGCommit
    (st, .ok { sequence := c.1, diff := c.2, hash := cm.hash, date := cm.date })
  | (st, none) => (st, .error (.unboundLocal "closest_seq"))

/-! ### `Repo.checkout` and `Metrics.compare_checkouts` -/

/-- The `Repo` object: the commit list (hash, commit date) and, as the
abstraction of the underlying git store, the tree contents of each
revision. -/
structure RepoC where
  commits : List (String × String)
  revTree : String → DTree

/-- The filesystem state `Repo.checkout` acts on: the working tree of the
clone (`repo.dir`), the directories existing under external paths (the
store), and a counter of git subprocesses issued (observable effect). -/
structure FsWorld where
  repoTree : DTree
  outDirs : List (String × DTree)
  gitCalls : Nat

/-- `Repo.checkout(commit_no, copy)`.  With `copy=None`, `git checkout`
moves the working tree to the revision and `None` is returned.  With a
`copy` path that already exists as a directory, nothing at all is done: the
existing contents are assumed to be that checkout.  Otherwise the directory
is created and populated via `git archive` (the working tree keeps whatever
commit it had checked out before). -/
def Repo.checkout (R : RepoC) (w : FsWorld) (commit_no : Nat) (copy : Option String) :
    Option String × FsWorld :=
  let hash := (R.commits.getD commit_no ("", "")).1
  match copy with
  | none =>
    (none, { repoTree := R.revTree hash, outDirs := w.outDirs, gitCalls := w.gitCalls + 1 })
  | some path =>
    if (alookup w.outDirs path).isSome then (some path, w)
    else
      (some path,
       { repoTree := w.repoTree,
         outDirs := w.outDirs ++ [(path, R.revTree hash)],
         gitCalls := w.gitCalls + 1 })

/-- `Metrics.compare_checkouts`: check out the left commit into
`store/<hash>` (reusing the directory's existing contents when it is already
present), check out the right commit in the repository itself, and compare
the two trees. -/
def compare_checkouts (R : RepoC) (kinds : List String) (store : String)
    (w : FsWorld) (left_commit right_commit : Nat) :
    List (String × Nat) × FsWorld :=
  let left_dir := store ++ "/" ++ (R.commits.getD left_commit ("", "")).1
  let r1 := Repo.checkout R w left_commit (some left_dir)
  let leftTree := (alookup r1.2.outDirs left_dir).getD (.node [] [])
  let r2 := Repo.checkout R r1.2 right_commit none
  (BaseDir.compare kinds leftTree r2.2.repoTree, r2.2)

/-! ### Concrete inputs used by witnesses and counterexamples -/

/-- The base directory of the spec's concrete comparison scenario (§8): one
shared file whose left copy has 5 common and 4 left-specific lines, and
three files of 3 lines unique to the base. -/
def exBase : DTree :=
  .node [("shared.txt", ["c1", "c2", "c3", "c4", "c5", "l1", "l2", "l3", "l4"]),
         ("u1.txt", ["a1", "a2", "a3"]),
         ("u2.txt", ["b1", "b2", "b3"]),
         ("u3.txt", ["d1", "d2", "d3"])] []

/-- The target directory of the spec's concrete comparison scenario: the
shared file with the 5 common lines and 5 new lines, and three files of
3 lines unique to the target. -/
def exTarget : DTree :=
  .node [("shared.txt", ["c1", "c2", "c3", "c4", "c5", "r1", "r2", "r3", "r4", "r5"]),
         ("e1.txt", ["f1", "f2", "f3"]),
         ("e2.txt", ["g1", "g2", "g3"]),
         ("e3.txt", ["h1", "h2", "h3"])] []

/-- A single-entry metrics record carrying one value of `diff_files`. -/
def exRec (v : Nat) : List (String × Nat) := [("diff_files", v)]

/-- A memoized-metrics dictionary with `diff_files` values `9, 5, 5, 5, 5`
at sequences `0..4`: sequence 1 is the lowest-sequence commit attaining the
minimum, but ties evict it from a bandwidth-1 band. -/
def exMetricsTie : List (Nat × List (String × Nat)) :=
  [(0, exRec 9), (1, exRec 5), (2, exRec 5), (3, exRec 5), (4, exRec 5)]

/-- A commit whose checkout succeeds, with a one-file tree. -/
def exCommitOk : GCommit := ⟨"h0", "d0", true, .node [("a.txt", ["x"])] []⟩

/-- A commit whose `git checkout` fails (nonzero exit status, ignored by the
source), with a tree differing from `exCommitOk`'s. -/
def exCommitBad : GCommit := ⟨"h1", "d1", false, .node [("a.txt", ["y", "z"])] []⟩

/-- A two-commit engine where the second commit's checkout fails. -/
def exMBad : MetricsObj :=
  ⟨.node [("a.txt", ["x"])] [], ["diff"], [exCommitOk, exCommitBad], .node [] []⟩

/-- An engine over an empty commit history. -/
def exMEmpty : MetricsObj :=
  ⟨.node [("a.txt", ["x"])] [], ["diff"], [], .node [] []⟩

/-- A two-commit engine where both checkouts succeed; commit 0 matches the
base directory exactly, commit 1 differs. -/
def exMOk : MetricsObj :=
  ⟨.node [("a.txt", ["x"])] [], ["diff"],
   [exCommitOk, ⟨"h1", "d1", true, .node [("a.txt", ["y", "z"])] []⟩], .node [] []⟩

/-- Reading files of the left directory in the unreadable-file scenario:
`gone.txt` is listed but has vanished before `open`. -/
def exReadL : String → Option FileLines :=
  fun n => if n = "good.txt" then some ["p", "q"] else none

/-- Reading files of the right directory in the unreadable-file scenario. -/
def exReadR : String → Option FileLines :=
  fun n => if n = "good.txt" then some ["p", "r"] else some ["s"]

/-- A two-commit repository for the checkout/store scenario. -/
def exRepo : RepoC :=
  ⟨[("aaa", "2016-01-01"), ("bbb", "2016-02-01")],
   fun h => if h = "aaa" then .node [("f.txt", ["v1"])] [] else .node [("f.txt", ["v1", "v2"])] []⟩

/-- Stale contents sitting in the store under commit `aaa`'s hash: not what
`git archive` would produce for `aaa`. -/
def exStale : DTree := .node [("f.txt", ["stale"])] []

/-- A world in which the store already holds a directory for commit `aaa`. -/
def exWorldHit : FsWorld := ⟨.node [] [], [("store/aaa", exStale)], 0⟩

/-- A world with an empty store. -/
def exWorldMiss : FsWorld := ⟨.node [] [], [], 0⟩

/-! ### Specification predicates and proof forms

The definitions below are not translations of source lines; they are the
vocabulary in which the theorems about the engine are stated (extremal-value
orders, the record an all-successful evaluation of a commit produces), plus
a single-list proof form of the band loop. -/

/-- "at least as close": `a` is at least as good as `b` under the
extremizer (`≤` for `min`, `≥` for `max`). -/
def cle (fn : CFn) (a b : Nat) : Prop :=
  match fn with
  | .cmin => a ≤ b
  | .cmax => b ≤ a

/-- "strictly closer" under the extremizer. -/
def clt (fn : CFn) (a b : Nat) : Prop :=
  match fn with
  | .cmin => a < b
  | .cmax => b < a

/-- `p` beats `q` in the band order actually implemented by
`closest_range`: strictly closer metric value, or an equal value with a
higher sequence number. -/
def lexBetter (fn : CFn) (p q : Nat × Nat) : Prop :=
  clt fn p.2 q.2 ∨ (p.2 = q.2 ∧ q.1 < p.1)

/-- `band_step` acting on a single list of `(sequence, value)` pairs
instead of the two parallel lists of the source; used as the proof form of
the band loop. -/
def pband_step (fn : CFn) (length : Nat) (band : List (Nat × Nat)) (p : Nat × Nat) :
    List (Nat × Nat) :=
  if band.length ≤ length then band ++ [p]
  else
    let farthest := farthestVal fn (band.map (·.2))
    if closerEq fn p.2 farthest then
      band.eraseIdx (idxOfN (band.map (·.2)) farthest) ++ [p]
    else band

/-- The band loop in its single-list proof form. -/
def pbandFold (fn : CFn) (length : Nat) (pairs : List (Nat × Nat)) : List (Nat × Nat) :=
  pairs.foldl (pband_step fn length) []

/-- Invariant of the band loop: after scanning `seen`, `band` holds the
`length+1` pairs of `seen` that are best in the `lexBetter` order — every
pair of `seen` outside the band is beaten by every band member — with the
band's sequence numbers strictly increasing. -/
structure BandInv (fn : CFn) (length : Nat) (seen band : List (Nat × Nat)) : Prop where
  card : band.length = min seen.length (length + 1)
  sorted : (band.map (·.1)).Pairwise (· < ·)
  sub : band ⊆ seen
  topk : ∀ p ∈ seen, p.1 ∉ band.map (·.1) → ∀ q ∈ band, lexBetter fn q p

/-- The metrics record `commit_metrics` produces for commit `seq` when its
checkout succeeds (independent of the working-directory state). -/
def pureDict (M : MetricsObj) (seq : Nat) : List (String × Nat) :=
  BaseDir.compare M.kinds M.basedir (M.commits.getD seq defaultGCommit).tree
    ++ [("commit_no", seq)]

/-- The value of `metric` for commit `i` when every checkout succeeds. -/
def metricVal (M : MetricsObj) (metric : String) (i : Nat) : Nat :=
  mlookupD (pureDict M i) metric

/-- Every checkout of the history succeeds. -/
def allOk (M : MetricsObj) : Prop :=
  ∀ c ∈ M.commits, c.ok = true

/-! ## Theorems -/

/-! ### Generic association-list lemmas -/

theorem alookup_append {α : Type} (l₁ l₂ : List (String × α)) (k : String) :
    alookup (l₁ ++ l₂) k =
      match alookup l₁ k with
      | some v => some v
      | none => alookup l₂ k := by
  induction l₁ with
  | nil => simp [alookup]
  | cons p rest ih =>
    by_cases h : p.1 = k
    · simp [alookup, h]
    · simp [alookup, h, ih]

theorem alookup_isSome_iff_mem {α : Type} (l : List (String × α)) (k : String) :
    (alookup l k).isSome ↔ k ∈ l.map (·.1) := by
  induction l with
  | nil => simp [alookup]
  | cons p rest ih =>
    by_cases h : p.1 = k
    · simp [alookup, h]
    · simp [alookup, h, ih, Ne.symm h]

theorem alookup_mem {α : Type} (l : List (String × α)) (k : String) (v : α)
    (h : alookup l k = some v) : (k, v) ∈ l := by
  induction l with
  | nil => simp [alookup] at h
  | cons p rest ih =>
    obtain ⟨pk, pv⟩ := p
    by_cases hk : pk = k
    · subst hk
      simp [alookup] at h
      subst h
      exact .head _
    · simp [alookup, hk] at h
      exact .tail _ (ih h)

/-! ### Metrics-record algebra -/

theorem DirM.add_def (x y : DirM) : x + y = DirM.add x y := rfl

theorem DirM.zero_def : (0 : DirM) = ⟨0, 0, 0, 0, 0, 0, 0, 0, 0, 0⟩ := rfl

theorem DirM.add_comm (x y : DirM) : x + y = y + x := by
  cases x; cases y
  simp [DirM.add_def, DirM.add]
  omega

theorem DirM.add_assoc (x y z : DirM) : x + y + z = x + (y + z) := by
  cases x; cases y; cases z
  simp [DirM.add_def, DirM.add]
  omega

theorem DirM.zero_add (x : DirM) : 0 + x = x := by
  cases x
  simp [DirM.add_def, DirM.add, DirM.zero_def]

theorem DirM.add_zero (x : DirM) : x + 0 = x := by
  cases x
  simp [DirM.add_def, DirM.add, DirM.zero_def]

theorem DirM.sum_nil : DirM.sum [] = 0 := rfl

theorem DirM.sum_cons (x : DirM) (l : List DirM) : DirM.sum (x :: l) = x + DirM.sum l := rfl

theorem DirM.sum_perm (l₁ l₂ : List DirM) (h : l₁.Perm l₂) : DirM.sum l₁ = DirM.sum l₂ := by
  induction h with
  | nil => rfl
  | cons x _ ih => simp [DirM.sum_cons, ih]
  | swap x y l =>
    simp [DirM.sum_cons, ← DirM.add_assoc]
    rw [DirM.add_comm y x]
  | trans _ _ ih₁ ih₂ => rw [ih₁, ih₂]

theorem DirM.transpose_add (x y : DirM) :
    (x + y).transpose = x.transpose + y.transpose := by
  cases x; cases y
  simp [DirM.add_def, DirM.add, DirM.transpose]

theorem DirM.transpose_zero : (0 : DirM).transpose = 0 := rfl

theorem DirM.transpose_sum (l : List DirM) :
    (DirM.sum l).transpose = DirM.sum (l.map DirM.transpose) := by
  induction l with
  | nil => rfl
  | cons x rest ih => simp [DirM.sum_cons, DirM.transpose_add, ih]

/-! ### C10: `Repo.checkout` with a copy directory -/

/-- C10: for `Repo.checkout` with a non-`None` copy path: if the path is
already a directory, no git command is executed (the git-call counter and
the whole world are untouched) and the existing directory is returned as the
checkout; if the path does not exist, the commit is exported into the newly
created directory via `git archive` while the repository's own working tree
stays on whatever it had checked out before; consequently
`Metrics.compare_checkouts` silently compares whatever the store already
holds under the commit's hash. -/
theorem claim_C10_checkout_copy (R : RepoC) (w : FsWorld) (n : Nat) (path : String)
    (kinds : List String) (store : String) (lc rc : Nat) :
    ((alookup w.outDirs path).isSome →
      Repo.checkout R w n (some path) = (some path, w)) ∧
    ((alookup w.outDirs path).isSome = false →
      Repo.checkout R w n (some path) =
        (some path,
         { repoTree := w.repoTree,
           outDirs := w.outDirs ++ [(path, R.revTree (R.commits.getD n ("", "")).1)],
           gitCalls := w.gitCalls + 1 })) ∧
    (∀ T, alookup w.outDirs (store ++ "/" ++ (R.commits.getD lc ("", "")).1) = some T →
      (compare_checkouts R kinds store w lc rc).1 =
        BaseDir.compare kinds T (R.revTree (R.commits.getD rc ("", "")).1)) := by
  refine ⟨?_, ?_, ?_⟩
  · intro h
    simp [Repo.checkout, h]
  · intro h
    simp [Repo.checkout, h]
  · intro T hT
    simp only [List.getD, List.get?_eq_getElem?] at hT
    have hs : (alookup w.outDirs (store ++ "/" ++ ((R.commits[lc]?).getD ("", "")).1)).isSome := by
      simp [hT]
    simp [compare_checkouts, Repo.checkout, hs, hT, List.getD]

/-! ### C6: unreadable common files abort the tree walk -/

theorem count_diff_exc_none (readL readR : String → Option FileLines) (files : List String)
    (f : String) (hf : f ∈ files) (h : readL f = none ∨ readR f = none) :
    count_diff_exc readL readR files = none := by
  induction files with
  | nil => cases hf
  | cons g rest ih =>
    rw [count_diff_exc]
    rcases List.mem_cons.mp hf with hg | hg
    · subst hg
      rcases h with h | h
      · simp [compare_files_exc, h]
      · simp only [compare_files_exc, h]
        cases readL f <;> simp
    · cases hcf : compare_files_exc (readL g) (readR g) with
      | none => simp
      | some c => simp [ih hg]

theorem count_diff_exc_isSome (readL readR : String → Option FileLines) (files : List String)
    (h : ∀ f ∈ files, (readL f).isSome ∧ (readR f).isSome) :
    (count_diff_exc readL readR files).isSome := by
  induction files with
  | nil => simp [count_diff_exc]
  | cons g rest ih =>
    obtain ⟨hl, hr⟩ := h g (List.mem_cons_self g rest)
    obtain ⟨cl, hcl⟩ := Option.isSome_iff_exists.mp hl
    obtain ⟨cr, hcr⟩ := Option.isSome_iff_exists.mp hr
    have := ih (fun f hf => h f (List.mem_cons_of_mem g hf))
    obtain ⟨s, hs⟩ := Option.isSome_iff_exists.mp this
    rw [count_diff_exc]
    simp [compare_files_exc, hcl, hcr, hs]

/-- C6 counterexample: a tree comparison in which the common file
`gone.txt` has vanished between the listing and the `open`.  The claim says
the walk continues and still returns the totals of the remaining readable
files (`some (1, 1, 1, 1)` for `good.txt` alone); the code propagates the
exception and produces no totals at all. -/
theorem claim_C6_counterexample :
    count_diff_exc exReadL exReadR ["good.txt", "gone.txt"] = none ∧
    count_diff_exc exReadL exReadR ["good.txt"] = some (1, 1, 1, 1) ∧
    count_diff_exc exReadL exReadR ["good.txt", "gone.txt"] ≠ some (1, 1, 1, 1) := by
  refine ⟨?_, ?_, ?_⟩
  · simp [count_diff_exc, compare_files_exc, exReadL, exReadR, compare_files, lcsLen]
  · simp [count_diff_exc, compare_files_exc, exReadL, exReadR, compare_files, lcsLen]
  · simp [count_diff_exc, compare_files_exc, exReadL, exReadR]

/-- C6 (amended): a common file that cannot be read is fatal to the tree
comparison: the exception propagates out of the per-file loop, so no totals
are produced at all for the file list; only when every listed file is
readable on both sides does the comparison return a complete record. -/
theorem claim_C6_unreadable_common_file :
    (∀ (readL readR : String → Option FileLines) (files : List String) (f : String),
      f ∈ files → (readL f = none ∨ readR f = none) →
      count_diff_exc readL readR files = none) ∧
    (∀ (readL readR : String → Option FileLines) (files : List String),
      (∀ f ∈ files, (readL f).isSome ∧ (readR f).isSome) →
      (count_diff_exc readL readR files).isSome) :=
  ⟨count_diff_exc_none, count_diff_exc_isSome⟩

/-- Witness for C6 at the concrete scenario: the vanished file kills the
whole walk, the all-readable sublist yields a record. -/
theorem claim_C6_unreadable_common_file_witness :
    count_diff_exc exReadL exReadR ["gone.txt"] = none ∧
    (count_diff_exc exReadL exReadR ["good.txt"]).isSome :=
  ⟨claim_C6_unreadable_common_file.1 exReadL exReadR ["gone.txt"] "gone.txt"
      (by simp) (Or.inl (by simp [exReadL])),
   claim_C6_unreadable_common_file.2 exReadL exReadR ["good.txt"]
      (by intro f hf; simp at hf; subst hf; simp [exReadL, exReadR])⟩

/-! ### C3: the step update of `closest_commit` -/

theorem ceilDiv_pos (a b : Nat) (ha : 1 ≤ a) (hb : 1 ≤ b) : 1 ≤ ceilDiv a b := by
  unfold ceilDiv
  rw [Nat.one_le_div_iff (by omega)]
  omega

theorem ceilDiv_zero_left (b : Nat) : ceilDiv 0 b = 0 := by
  unfold ceilDiv
  cases b with
  | zero => simp
  | succ b' => exact Nat.div_eq_of_lt (by omega)

theorem next_step_lt (ratio left right step : Nat) (h : 2 ≤ step) :
    next_step ratio left right step < step := by
  unfold next_step
  simp only
  split
  · omega
  · rename_i hcond
    have h1 : 1 ≤ step / 2 := by omega
    have : ¬ step / 2 ≤ ceilDiv (right - left + 1) ratio := by tauto
    omega

theorem next_step_pos (ratio left right step : Nat) (hr : 1 ≤ ratio) :
    1 ≤ next_step ratio left right step := by
  unfold next_step
  simp only
  split
  · rename_i hcond
    exact hcond.2
  · exact ceilDiv_pos _ _ (by omega) hr

/-- The `while step >= 1` loop always terminates through its `step == 1`
branch (producing a closest commit) once it is entered with a positive step
and a positive ratio. -/
theorem cc_loop_isSome (M : MetricsObj) (ratio length : Nat) (metric : String) (fn : CFn)
    (hr : 1 ≤ ratio) :
    ∀ (step left right : Nat) (st : SearchState), 1 ≤ step →
      ((cc_loop M ratio length metric fn left right step st).2).isSome := by
  intro step
  induction step using Nat.strong_induction_on with
  | _ step ih =>
    intro left right st hstep
    rw [cc_loop]
    rw [dif_pos hstep]
    by_cases h1 : step = 1
    · simp [h1]
    · simp only [if_neg h1]
      exact ih _ (next_step_lt _ _ _ _ (by omega)) _ _ _ (next_step_pos _ _ _ _ hr)

/-- C3 counterexample: with `ratio = 10`, window `[0, 29]` and `step = 10`,
the claim's rule keeps `step/2 = 5` (since `5 ≥ ceil(30/10) = 3`), but the
source's condition is reversed and the code takes `candidate_step = 3`. -/
theorem claim_C3_counterexample :
    next_step 10 0 29 10 = 3 ∧ next_step_spec 10 0 29 10 = 5 ∧
    next_step 10 0 29 10 ≠ next_step_spec 10 0 29 10 := by
  refine ⟨by decide, by decide, by decide⟩

/-- C3 (amended): for `step ≥ 2` the next step is `step/2` when
`step/2 ≤ ceil((high-low+1)/ratio)` (and `step/2 ≥ 1`), and
`ceil((high-low+1)/ratio)` otherwise — i.e. the smaller of the two, the
reverse of the claimed condition; consequently the step strictly decreases,
stays at least 1, and the loop always terminates through its `step == 1`
branch with a result. -/
theorem claim_C3_step_update (ratio low high step : Nat) (h2 : 2 ≤ step) (hr : 1 ≤ ratio) :
    (next_step ratio low high step =
      if step / 2 ≤ ceilDiv (high - low + 1) ratio then step / 2
      else ceilDiv (high - low + 1) ratio) ∧
    1 ≤ next_step ratio low high step ∧
    next_step ratio low high step < step ∧
    (∀ (M : MetricsObj) (length : Nat) (metric : String) (fn : CFn)
       (left right stp : Nat) (st : SearchState), 1 ≤ stp →
      ((cc_loop M ratio length metric fn left right stp st).2).isSome) := by
  refine ⟨?_, next_step_pos _ _ _ _ hr, next_step_lt _ _ _ _ h2, ?_⟩
  · unfold next_step
    simp only
    have h1 : 1 ≤ step / 2 := by omega
    by_cases hc : step / 2 ≤ ceilDiv (high - low + 1) ratio
    · rw [if_pos ⟨hc, h1⟩, if_pos hc]
    · rw [if_neg (by tauto), if_neg hc]
  · intro M length metric fn left right stp st hstp
    exact cc_loop_isSome M ratio length metric fn hr stp left right st hstp

/-- Witness for C3 at concrete numbers (`ratio = 10`, window `[0, 29]`,
`step = 10`). -/
theorem claim_C3_step_update_witness :
    next_step 10 0 29 10 = (if 10 / 2 ≤ ceilDiv (29 - 0 + 1) 10 then 10 / 2
      else ceilDiv (29 - 0 + 1) 10) ∧
    1 ≤ next_step 10 0 29 10 ∧ next_step 10 0 29 10 < 10 ∧
    ((cc_loop exMOk 10 3 "diff_files" .cmin 0 1 1
        ⟨exMOk.workdir0, [], 0⟩).2).isSome := by
  have h := claim_C3_step_update 10 0 29 10 (by decide) (by decide)
  exact ⟨h.1, h.2.1, h.2.2.1,
    h.2.2.2 exMOk 3 "diff_files" .cmin 0 1 1 ⟨exMOk.workdir0, [], 0⟩ (by decide)⟩

/-! ### C4: empty commit history -/

/-- C4 counterexample: on an empty history the search does fail before any
checkout (no git call is ever made), but with the generic unbound-local
error on `closest_seq`, not with a distinct `EmptyHistory` condition. -/
theorem claim_C4_counterexample :
    (closest_commit exMEmpty 10 3 "diff_files" .cmin).2 =
      .error (.unboundLocal "closest_seq") ∧
    (closest_commit exMEmpty 10 3 "diff_files" .cmin).2 ≠ .error .emptyHistory ∧
    (closest_commit exMEmpty 10 3 "diff_files" .cmin).1.checkouts = 0 := by
  have h : closest_commit exMEmpty 10 3 "diff_files" .cmin =
      ({ workdir := exMEmpty.workdir0, metrics := [], checkouts := 0 },
       .error (.unboundLocal "closest_seq")) := by
    rw [closest_commit]
    have hstep : ceilDiv exMEmpty.commits.length 10 = 0 := by
      simp [exMEmpty, ceilDiv]
    rw [hstep, cc_loop]
    simp
  rw [h]
  refine ⟨rfl, by simp, rfl⟩

/-- C4 (amended): on an empty commit history the sampling loop never runs,
so no checkout is attempted (zero git subprocesses), nothing is memoized,
and no result record is returned; but the failure is the generic Python
`UnboundLocalError` on `closest_seq` — there is no distinct `EmptyHistory`
failure condition in the code. -/
theorem claim_C4_empty_history (M : MetricsObj) (ratio length : Nat) (metric : String)
    (fn : CFn) (hM : M.commits = []) :
    closest_commit M ratio length metric fn =
      ({ workdir := M.workdir0, metrics := [], checkouts := 0 },
       .error (.unboundLocal "closest_seq")) ∧
    (closest_commit M ratio length metric fn).2 ≠ .error .emptyHistory := by
  have h : closest_commit M ratio length metric fn =
      ({ workdir := M.workdir0, metrics := [], checkouts := 0 },
       .error (.unboundLocal "closest_seq")) := by
    rw [closest_commit]
    have hstep : ceilDiv M.commits.length ratio = 0 := by
      rw [hM]
      simp [ceilDiv_zero_left]
    rw [hstep, cc_loop]
    simp
  refine ⟨h, by rw [h]; simp⟩

/-- Witness for C4 at the concrete empty-history engine. -/
theorem claim_C4_empty_history_witness :
    closest_commit exMEmpty 7 3 "added_lines" .cmax =
      ({ workdir := exMEmpty.workdir0, metrics := [], checkouts := 0 },
       .error (.unboundLocal "closest_seq")) ∧
    (closest_commit exMEmpty 7 3 "added_lines" .cmax).2 ≠ .error .emptyHistory :=
  claim_C4_empty_history exMEmpty 7 3 "added_lines" .cmax rfl

/-! ### C5: failed checkouts are memoized anyway -/

theorem dictAt_sortedInsert_self (m : List (Nat × List (String × Nat))) (s : Nat)
    (d : List (String × Nat)) : (dictAt (sortedInsert m s d) s).isSome := by
  induction m with
  | nil => simp [sortedInsert, dictAt]
  | cons p rest ih =>
    rw [sortedInsert]
    by_cases h : s < p.1
    · simp [h, dictAt]
    · rw [if_neg h]
      by_cases he : p.1 = s
      · simp [dictAt, he]
      · simp [dictAt, he, ih]

theorem dictAt_sortedInsert_pres (m : List (Nat × List (String × Nat))) (s x : Nat)
    (d : List (String × Nat)) (h : (dictAt m x).isSome) :
    (dictAt (sortedInsert m s d) x).isSome := by
  induction m with
  | nil => simp [dictAt] at h
  | cons p rest ih =>
    rw [sortedInsert]
    by_cases hlt : s < p.1
    · rw [if_pos hlt]
      by_cases he : s = x
      · simp [dictAt, he]
      · rw [dictAt, if_neg he]
        exact h
    · rw [if_neg hlt]
      by_cases he : p.1 = x
      · simp [dictAt, he]
      · rw [dictAt, if_neg he]
        rw [dictAt, if_neg he] at h
        exact ih h

theorem rm_step_isSome_self (M : MetricsObj) (st : SearchState) (seq : Nat) :
    (dictAt (rm_step M st seq).metrics seq).isSome := by
  rw [rm_step]
  by_cases h : (dictAt st.metrics seq).isSome
  · simpa [h]
  · simp only [h]
    simp [dictAt_sortedInsert_self]

theorem rm_step_pres (M : MetricsObj) (st : SearchState) (seq x : Nat)
    (h : (dictAt st.metrics x).isSome) :
    (dictAt (rm_step M st seq).metrics x).isSome := by
  rw [rm_step]
  by_cases hs : (dictAt st.metrics seq).isSome
  · simpa [hs]
  · simp only [hs, Bool.false_eq_true, if_false]
    exact dictAt_sortedInsert_pres _ _ _ _ h

theorem rm_fold_pres (M : MetricsObj) (l : List Nat) (st : SearchState) (x : Nat)
    (h : (dictAt st.metrics x).isSome) :
    (dictAt (l.foldl (rm_step M) st).metrics x).isSome := by
  induction l generalizing st with
  | nil => simpa
  | cons s rest ih => exact ih _ (rm_step_pres M st s x h)

theorem rm_fold_mem (M : MetricsObj) (l : List Nat) (st : SearchState) (x : Nat)
    (hx : x ∈ l) : (dictAt (l.foldl (rm_step M) st).metrics x).isSome := by
  induction l generalizing st with
  | nil => cases hx
  | cons s rest ih =>
    rcases List.mem_cons.mp hx with h | h
    · subst h
      exact rm_fold_pres M rest _ x (rm_step_isSome_self M st x)
    · exact ih _ h

/-- C5 counterexample: a two-commit history whose second checkout fails.
The claim says the failed sample is skipped and not memoized; the code
ignores the exit status, compares the base against the stale working tree
(still commit 0's checkout) and memoizes the result under sequence 1. -/
theorem claim_C5_counterexample :
    dictAt (range_metrics exMBad 0 1 1 ⟨exMBad.workdir0, [], 0⟩).metrics 1 =
      some (BaseDir.compare ["diff"] exMBad.basedir exCommitOk.tree ++ [("commit_no", 1)]) ∧
    dictAt (range_metrics exMBad 0 1 1 ⟨exMBad.workdir0, [], 0⟩).metrics 1 ≠ none := by
  have h : dictAt (range_metrics exMBad 0 1 1 ⟨exMBad.workdir0, [], 0⟩).metrics 1 =
      some (BaseDir.compare ["diff"] exMBad.basedir exCommitOk.tree ++ [("commit_no", 1)]) := by
    rw [range_metrics]
    have hpy : pyRange 0 1 1 ++ [1] = [0, 1] := by simp [pyRange, List.range']
    rw [hpy]
    simp only [List.foldl]
    rw [rm_step]
    simp only [dictAt, Option.isSome_none, Bool.false_eq_true, if_false]
    rw [rm_step]
    simp [commit_metrics, dictAt, sortedInsert, exMBad, exCommitOk, exCommitBad,
      defaultGCommit]
  exact ⟨h, by rw [h]; simp⟩

/-- C5 (amended): the engine ignores the exit status of `git checkout`.  A
commit whose checkout fails is still evaluated — against whatever the shared
working directory happened to contain — and the resulting record is
memoized under that sequence number exactly as for a successful checkout;
every sampled sequence number of a `range_metrics` call is memoized
afterwards, whether or not its checkout succeeded. -/
theorem claim_C5_failed_checkout_memoized :
    (∀ (M : MetricsObj) (st : SearchState) (seq : Nat),
      (M.commits.getD seq defaultGCommit).ok = false →
      commit_metrics M st seq =
        (BaseDir.compare M.kinds M.basedir st.workdir ++ [("commit_no", seq)],
         { workdir := st.workdir, metrics := st.metrics, checkouts := st.checkouts + 1 })) ∧
    (∀ (M : MetricsObj) (first last step : Nat) (st : SearchState) (seq : Nat),
      seq ∈ pyRange first last step ++ [last] →
      (dictAt (range_metrics M first last step st).metrics seq).isSome) := by
  constructor
  · intro M st seq hok
    simp only [List.getD, List.get?_eq_getElem?] at hok
    rw [commit_metrics]
    simp [hok]
  · intro M first last step st seq hseq
    rw [range_metrics]
    exact rm_fold_mem M _ st seq hseq

/-- Witness for C5: the failing commit 1 of the concrete two-commit history
is compared against the stale tree and is memoized after sampling. -/
theorem claim_C5_failed_checkout_memoized_witness :
    commit_metrics exMBad ⟨exCommitOk.tree, [(0, exRec 0)], 1⟩ 1 =
      (BaseDir.compare exMBad.kinds exMBad.basedir exCommitOk.tree ++ [("commit_no", 1)],
       { workdir := exCommitOk.tree, metrics := [(0, exRec 0)], checkouts := 2 }) ∧
    (dictAt (range_metrics exMBad 0 1 1 ⟨exMBad.workdir0, [], 0⟩).metrics 1).isSome :=
  ⟨claim_C5_failed_checkout_memoized.1 exMBad ⟨exCommitOk.tree, [(0, exRec 0)], 1⟩ 1 rfl,
   claim_C5_failed_checkout_memoized.2 exMBad 0 1 1 ⟨exMBad.workdir0, [], 0⟩ 1
     (by simp [pyRange, List.range'])⟩

/-! ### Lookups in the `BaseDir.compare` dictionary -/

theorem compare_lookup_always (kinds : List String) (l r : DTree) :
    mlookup (BaseDir.compare kinds l r) "diff_files" = some (compare_dirs l r).diff_files ∧
    mlookup (BaseDir.compare kinds l r) "added_lines" = some (compare_dirs l r).added_lines ∧
    mlookup (BaseDir.compare kinds l r) "removed_lines" = some (compare_dirs l r).removed_lines ∧
    mlookup (BaseDir.compare kinds l r) "equal_lines" = some (compare_dirs l r).equal_lines := by
  unfold BaseDir.compare mlookup
  by_cases hd : "diff" ∈ kinds <;> by_cases hs : "same" ∈ kinds <;>
    simp [hd, hs, alookup_append, alookup]

theorem compare_lookup_diff_full (kinds : List String) (l r : DTree) (hd : "diff" ∈ kinds) :
    mlookup (BaseDir.compare kinds l r) "left_files" = some (compare_dirs l r).left_files ∧
    mlookup (BaseDir.compare kinds l r) "left_lines" = some (compare_dirs l r).left_lines ∧
    mlookup (BaseDir.compare kinds l r) "right_files" = some (compare_dirs l r).right_files ∧
    mlookup (BaseDir.compare kinds l r) "right_lines" = some (compare_dirs l r).right_lines ∧
    mlookup (BaseDir.compare kinds l r) "different_files" =
      some (((compare_dirs l r).left_files + (compare_dirs l r).right_files) / 2 +
        (compare_dirs l r).diff_files) ∧
    mlookup (BaseDir.compare kinds l r) "different_lines" =
      some (((compare_dirs l r).left_lines + (compare_dirs l r).right_lines +
        (compare_dirs l r).added_lines + (compare_dirs l r).removed_lines) / 2) := by
  unfold BaseDir.compare mlookup
  by_cases hs : "same" ∈ kinds <;> simp [hd, hs, alookup_append, alookup]

theorem compare_lookup_same_full (kinds : List String) (l r : DTree) (hs : "same" ∈ kinds) :
    mlookup (BaseDir.compare kinds l r) "same_files" = some (compare_dirs l r).same_files ∧
    mlookup (BaseDir.compare kinds l r) "same_lines" = some (compare_dirs l r).same_lines ∧
    mlookup (BaseDir.compare kinds l r) "common_files" = some (compare_dirs l r).same_files ∧
    mlookup (BaseDir.compare kinds l r) "common_lines" =
      some ((compare_dirs l r).same_lines + (compare_dirs l r).equal_lines) := by
  unfold BaseDir.compare mlookup
  by_cases hd : "diff" ∈ kinds <;> simp [hd, hs, alookup_append, alookup]

theorem compare_lookup_no_diff (kinds : List String) (l r : DTree) (hd : ¬ "diff" ∈ kinds) :
    mlookup (BaseDir.compare kinds l r) "left_files" = none ∧
    mlookup (BaseDir.compare kinds l r) "left_lines" = none ∧
    mlookup (BaseDir.compare kinds l r) "right_files" = none ∧
    mlookup (BaseDir.compare kinds l r) "right_lines" = none ∧
    mlookup (BaseDir.compare kinds l r) "different_files" = none ∧
    mlookup (BaseDir.compare kinds l r) "different_lines" = none := by
  unfold BaseDir.compare mlookup
  by_cases hs : "same" ∈ kinds <;> simp [hd, hs, alookup_append, alookup]

theorem compare_lookup_no_same (kinds : List String) (l r : DTree) (hs : ¬ "same" ∈ kinds) :
    mlookup (BaseDir.compare kinds l r) "same_files" = none ∧
    mlookup (BaseDir.compare kinds l r) "same_lines" = none ∧
    mlookup (BaseDir.compare kinds l r) "common_files" = none ∧
    mlookup (BaseDir.compare kinds l r) "common_lines" = none := by
  unfold BaseDir.compare mlookup
  by_cases hd : "diff" ∈ kinds <;> simp [hd, hs, alookup_append, alookup]

/-! ### C9: the emitted field set depends on the configured kinds -/

/-- C9 counterexample: with the comparator configured for kind `'diff'`
alone (the default), the result of `compare` contains no
`common_files`/`same_files` entries; with `'same'` alone it contains no
`different_files`/`left_files` entries.  The claim's "full ComparisonMetrics
field set for every configuration" fails. -/
theorem claim_C9_counterexample :
    mlookup (BaseDir.compare ["diff"] (.node [] []) (.node [] [])) "common_files" = none ∧
    mlookup (BaseDir.compare ["diff"] (.node [] []) (.node [] [])) "same_files" = none ∧
    mlookup (BaseDir.compare ["same"] (.node [] []) (.node [] [])) "different_files" = none ∧
    mlookup (BaseDir.compare ["same"] (.node [] []) (.node [] [])) "left_files" = none := by
  have h1 := compare_lookup_no_same ["diff"] (.node [] []) (.node [] []) (by simp)
  have h2 := compare_lookup_no_diff ["same"] (.node [] []) (.node [] []) (by simp)
  exact ⟨h1.2.2.1, h1.1, h2.2.2.2.2.1, h2.1⟩

/-- C9 (amended): `compare` returns a flat name→count dictionary whose key
set is determined by the configured metric kinds: the four
`diff_files`/`added_lines`/`removed_lines`/`equal_lines` entries are always
present, the left/right/different group only when `'diff'` is configured,
and the same/common group only when `'same'` is configured; the full
ComparisonMetrics field set appears exactly when both kinds are enabled. -/
theorem claim_C9_field_set (kinds : List String) (l r : DTree) :
    ((BaseDir.compare kinds l r).map (·.1) =
      (if "diff" ∈ kinds then ["left_files", "left_lines", "right_files", "right_lines"]
       else []) ++
      (if "same" ∈ kinds then ["same_files", "same_lines"] else []) ++
      ["diff_files", "added_lines", "removed_lines", "equal_lines"] ++
      (if "diff" ∈ kinds then ["different_files", "different_lines"] else []) ++
      (if "same" ∈ kinds then ["common_files", "common_lines"] else [])) ∧
    ("diff" ∈ kinds → "same" ∈ kinds →
      ∀ k ∈ ["left_files", "left_lines", "right_files", "right_lines",
             "same_files", "same_lines", "diff_files", "added_lines",
             "removed_lines", "equal_lines", "different_files", "different_lines",
             "common_files", "common_lines"],
        (mlookup (BaseDir.compare kinds l r) k).isSome) := by
  constructor
  · unfold BaseDir.compare
    by_cases hd : "diff" ∈ kinds <;> by_cases hs : "same" ∈ kinds <;> simp [hd, hs]
  · intro hd hs k hk
    have ha := compare_lookup_always kinds l r
    have hdf := compare_lookup_diff_full kinds l r hd
    have hsf := compare_lookup_same_full kinds l r hs
    fin_cases hk <;>
      simp [ha.1, ha.2.1, ha.2.2.1, ha.2.2.2, hdf.1, hdf.2.1, hdf.2.2.1, hdf.2.2.2.1,
        hdf.2.2.2.2.1, hdf.2.2.2.2.2, hsf.1, hsf.2.1, hsf.2.2.1, hsf.2.2.2]

/-- Witness for C9 with both kinds enabled on concrete trees. -/
theorem claim_C9_field_set_witness :
    (BaseDir.compare ["diff", "same"] exBase exTarget).map (·.1) =
      ["left_files", "left_lines", "right_files", "right_lines"] ++
      ["same_files", "same_lines"] ++
      ["diff_files", "added_lines", "removed_lines", "equal_lines"] ++
      ["different_files", "different_lines"] ++ ["common_files", "common_lines"] ∧
    (mlookup (BaseDir.compare ["diff", "same"] exBase exTarget) "common_lines").isSome := by
  have h := claim_C9_field_set ["diff", "same"] exBase exTarget
  refine ⟨?_, h.2 (by simp) (by simp) "common_lines" (by simp)⟩
  have h1 := h.1
  simpa using h1

/-! ### C7: the derived summary metrics -/

/-- The spec's concrete scenario: 3 left-only files with 9 lines, 3
right-only files with 9 lines, one common differing file with 5 added, 4
removed and 5 equal lines. -/
theorem exScenario_compare_dirs :
    compare_dirs exBase exTarget = ⟨3, 9, 3, 9, 0, 0, 1, 5, 4, 5⟩ := by
  rw [compare_dirs]
  simp [compare_subdirs, levelM, exBase, exTarget, leftOnlyNames, rightOnlyNames,
    sameFileNames, diffFileNames, commonFileNames, count_files, count_diff,
    compare_files, lcsLen, fileContent, alookup, DTree.names, DTree.files, DTree.dirs,
    lineCountOf, DirM.add_def, DirM.add, DirM.zero_def]

/-- C7: for every top-level comparison the derived metrics are computed
once, at the top level, from the recursively summed counters, and satisfy
`different_files = (left_files + right_files) / 2 + diff_files`,
`different_lines = (left_lines + right_lines + added_lines + removed_lines) / 2`
(integer division), `common_files = same_files` and
`common_lines = same_lines + equal_lines`; on the spec's concrete scenario
this gives `different_files = 4` and `different_lines = 13`. -/
theorem claim_C7_derived_metrics (kinds : List String) (l r : DTree) :
    ("diff" ∈ kinds →
      mlookup (BaseDir.compare kinds l r) "different_files" =
        some ((mlookupD (BaseDir.compare kinds l r) "left_files" +
               mlookupD (BaseDir.compare kinds l r) "right_files") / 2 +
              mlookupD (BaseDir.compare kinds l r) "diff_files") ∧
      mlookup (BaseDir.compare kinds l r) "different_lines" =
        some ((mlookupD (BaseDir.compare kinds l r) "left_lines" +
               mlookupD (BaseDir.compare kinds l r) "right_lines" +
               mlookupD (BaseDir.compare kinds l r) "added_lines" +
               mlookupD (BaseDir.compare kinds l r) "removed_lines") / 2)) ∧
    ("same" ∈ kinds →
      mlookup (BaseDir.compare kinds l r) "common_files" =
        mlookup (BaseDir.compare kinds l r) "same_files" ∧
      mlookup (BaseDir.compare kinds l r) "common_lines" =
        some (mlookupD (BaseDir.compare kinds l r) "same_lines" +
              mlookupD (BaseDir.compare kinds l r) "equal_lines")) ∧
    (mlookup (BaseDir.compare ["diff", "same"] exBase exTarget) "left_files" = some 3 ∧
     mlookup (BaseDir.compare ["diff", "same"] exBase exTarget) "left_lines" = some 9 ∧
     mlookup (BaseDir.compare ["diff", "same"] exBase exTarget) "right_files" = some 3 ∧
     mlookup (BaseDir.compare ["diff", "same"] exBase exTarget) "right_lines" = some 9 ∧
     mlookup (BaseDir.compare ["diff", "same"] exBase exTarget) "diff_files" = some 1 ∧
     mlookup (BaseDir.compare ["diff", "same"] exBase exTarget) "added_lines" = some 5 ∧
     mlookup (BaseDir.compare ["diff", "same"] exBase exTarget) "removed_lines" = some 4 ∧
     mlookup (BaseDir.compare ["diff", "same"] exBase exTarget) "equal_lines" = some 5 ∧
     mlookup (BaseDir.compare ["diff", "same"] exBase exTarget) "different_files" = some 4 ∧
     mlookup (BaseDir.compare ["diff", "same"] exBase exTarget) "different_lines" = some 13) := by
  have ha := compare_lookup_always kinds l r
  refine ⟨?_, ?_, ?_⟩
  · intro hd
    have hdf := compare_lookup_diff_full kinds l r hd
    rw [hdf.2.2.2.2.1, hdf.2.2.2.2.2]
    unfold mlookupD
    rw [hdf.1, hdf.2.1, hdf.2.2.1, hdf.2.2.2.1, ha.1, ha.2.1, ha.2.2.1]
    simp
  · intro hs
    have hsf := compare_lookup_same_full kinds l r hs
    rw [hsf.2.2.1, hsf.2.2.2, hsf.1]
    unfold mlookupD
    rw [hsf.2.1, ha.2.2.2]
    simp
  · have ha' := compare_lookup_always ["diff", "same"] exBase exTarget
    have hdf' := compare_lookup_diff_full ["diff", "same"] exBase exTarget (by simp)
    have hsf' := compare_lookup_same_full ["diff", "same"] exBase exTarget (by simp)
    rw [exScenario_compare_dirs] at ha' hdf'
    exact ⟨hdf'.1, hdf'.2.1, hdf'.2.2.1, hdf'.2.2.2.1, ha'.1, ha'.2.1, ha'.2.2.1,
      ha'.2.2.2, hdf'.2.2.2.2.1, hdf'.2.2.2.2.2⟩

/-- Witness for C7: the derived-metric equations instantiated on the
concrete scenario trees with both kinds enabled. -/
theorem claim_C7_derived_metrics_witness :
    mlookup (BaseDir.compare ["diff", "same"] exBase exTarget) "different_files" =
      some ((mlookupD (BaseDir.compare ["diff", "same"] exBase exTarget) "left_files" +
             mlookupD (BaseDir.compare ["diff", "same"] exBase exTarget) "right_files") / 2 +
            mlookupD (BaseDir.compare ["diff", "same"] exBase exTarget) "diff_files") ∧
    mlookup (BaseDir.compare ["diff", "same"] exBase exTarget) "common_lines" =
      some (mlookupD (BaseDir.compare ["diff", "same"] exBase exTarget) "same_lines" +
            mlookupD (BaseDir.compare ["diff", "same"] exBase exTarget) "equal_lines") ∧
    mlookup (BaseDir.compare ["diff", "same"] exBase exTarget) "different_files" = some 4 :=
  ⟨((claim_C7_derived_metrics ["diff", "same"] exBase exTarget).1 (by simp)).1,
   ((claim_C7_derived_metrics ["diff", "same"] exBase exTarget).2.1 (by simp)).2,
   (claim_C7_derived_metrics ["diff", "same"] exBase exTarget).2.2.2.2.2.2.2.2.2.2.1⟩

/-! ### C8: swapping the two sides transposes the metrics -/

theorem lcsLen_comm (a b : List String) : lcsLen a b = lcsLen b a := by
  induction a, b using lcsLen.induct with
  | case1 x => cases x <;> simp [lcsLen]
  | case2 h t => simp [lcsLen]
  | case3 as_ b bs ih => simp [lcsLen, ih]
  | case4 a as_ b bs hne ih₁ ih₂ =>
    have hne' : ¬ b = a := fun h => hne h.symm
    simp only [lcsLen, if_neg hne, if_neg hne']
    rw [ih₁, ih₂, Nat.max_comm]

theorem compare_files_swap (cl cr : FileLines) :
    compare_files cr cl =
      ((compare_files cl cr).1, (compare_files cl cr).2.2.1,
       (compare_files cl cr).2.1, (compare_files cl cr).2.2.2) := by
  unfold compare_files
  simp only
  rw [lcsLen_comm cr cl]
  refine Prod.ext ?_ (Prod.ext rfl (Prod.ext rfl rfl))
  simp only
  rw [Nat.add_comm]

theorem Wf_node_parts (fs : List (String × FileLines)) (ds : List (String × DTree))
    (h : DTree.Wf (.node fs ds)) :
    (fs.map (·.1)).Nodup ∧ (ds.map (·.1)).Nodup ∧
    (∀ n, n ∈ fs.map (·.1) → n ∈ ds.map (·.1) → False) ∧
    (∀ p ∈ ds, DTree.Wf p.2) := by
  cases h with
  | node _ _ hnd hsub =>
    rw [DTree.names] at hnd
    simp only [DTree.files, DTree.dirs] at hnd
    rw [List.nodup_append] at hnd
    exact ⟨hnd.1, hnd.2.1, fun n ha hb => hnd.2.2 ha hb, hsub⟩

theorem DTree.Wf.files_nodup (t : DTree) (h : t.Wf) : (t.files.map (·.1)).Nodup := by
  cases t with
  | node fs ds => exact (Wf_node_parts fs ds h).1

theorem DTree.Wf.dirs_nodup (t : DTree) (h : t.Wf) : (t.dirs.map (·.1)).Nodup := by
  cases t with
  | node fs ds => exact (Wf_node_parts fs ds h).2.1

theorem DTree.Wf.sub (t : DTree) (h : t.Wf) : ∀ p ∈ t.dirs, DTree.Wf p.2 := by
  cases t with
  | node fs ds => exact (Wf_node_parts fs ds h).2.2.2

theorem mem_commonFileNames (l r : DTree) (n : String) :
    n ∈ commonFileNames l r ↔ (fileContent l n).isSome ∧ (fileContent r n).isSome := by
  unfold commonFileNames
  rw [List.mem_filter]
  rw [← alookup_isSome_iff_mem]
  constructor
  · intro ⟨h1, h2⟩
    exact ⟨h1, by simpa using h2⟩
  · intro ⟨h1, h2⟩
    exact ⟨h1, by simpa using h2⟩

theorem mem_sameFileNames (l r : DTree) (n : String) :
    n ∈ sameFileNames l r ↔
      ((fileContent l n).isSome ∧ (fileContent r n).isSome) ∧
      fileContent l n = fileContent r n := by
  unfold sameFileNames
  rw [List.mem_filter, mem_commonFileNames]
  constructor
  · intro ⟨h1, h2⟩
    exact ⟨h1, by simpa using h2⟩
  · intro ⟨h1, h2⟩
    exact ⟨h1, by simpa using h2⟩

theorem mem_diffFileNames (l r : DTree) (n : String) :
    n ∈ diffFileNames l r ↔
      ((fileContent l n).isSome ∧ (fileContent r n).isSome) ∧
      ¬ fileContent l n = fileContent r n := by
  unfold diffFileNames
  rw [List.mem_filter, mem_commonFileNames]
  constructor
  · intro ⟨h1, h2⟩
    exact ⟨h1, by simpa using h2⟩
  · intro ⟨h1, h2⟩
    exact ⟨h1, by simpa using h2⟩

theorem commonFileNames_nodup (l r : DTree) (hl : l.Wf) : (commonFileNames l r).Nodup :=
  (DTree.Wf.files_nodup l hl).filter _

theorem sameFileNames_nodup (l r : DTree) (hl : l.Wf) : (sameFileNames l r).Nodup :=
  (commonFileNames_nodup l r hl).filter _

theorem diffFileNames_nodup (l r : DTree) (hl : l.Wf) : (diffFileNames l r).Nodup :=
  (commonFileNames_nodup l r hl).filter _

theorem sameFileNames_perm (l r : DTree) (hl : l.Wf) (hr : r.Wf) :
    (sameFileNames l r).Perm (sameFileNames r l) := by
  rw [List.perm_ext_iff_of_nodup (sameFileNames_nodup l r hl) (sameFileNames_nodup r l hr)]
  intro n
  rw [mem_sameFileNames, mem_sameFileNames]
  constructor
  · intro ⟨⟨h1, h2⟩, h3⟩
    exact ⟨⟨h2, h1⟩, h3.symm⟩
  · intro ⟨⟨h1, h2⟩, h3⟩
    exact ⟨⟨h2, h1⟩, h3.symm⟩

theorem diffFileNames_perm (l r : DTree) (hl : l.Wf) (hr : r.Wf) :
    (diffFileNames l r).Perm (diffFileNames r l) := by
  rw [List.perm_ext_iff_of_nodup (diffFileNames_nodup l r hl) (diffFileNames_nodup r l hr)]
  intro n
  rw [mem_diffFileNames, mem_diffFileNames]
  constructor
  · intro ⟨⟨h1, h2⟩, h3⟩
    exact ⟨⟨h2, h1⟩, fun he => h3 he.symm⟩
  · intro ⟨⟨h1, h2⟩, h3⟩
    exact ⟨⟨h2, h1⟩, fun he => h3 he.symm⟩

theorem sum_map_perm_congr (f g : String → Nat) (l₁ l₂ : List String) (hp : l₁.Perm l₂)
    (hfg : ∀ n ∈ l₂, f n = g n) : (l₁.map f).sum = (l₂.map g).sum := by
  rw [(hp.map f).sum_eq]
  congr 1
  exact List.map_congr_left hfg

theorem count_diff_eq (l r : DTree) (files : List String) :
    count_diff l r files =
      ((files.map (fun n =>
          (compare_files ((fileContent l n).getD []) ((fileContent r n).getD [])).1)).sum,
       (files.map (fun n =>
          (compare_files ((fileContent l n).getD []) ((fileContent r n).getD [])).2.1)).sum,
       (files.map (fun n =>
          (compare_files ((fileContent l n).getD []) ((fileContent r n).getD [])).2.2.1)).sum,
       (files.map (fun n =>
          (compare_files ((fileContent l n).getD []) ((fileContent r n).getD [])).2.2.2)).sum) := by
  induction files with
  | nil => simp [count_diff]
  | cons f rest ih =>
    rw [count_diff, ih]
    simp only [List.map_cons, List.sum_cons, Prod.mk.injEq]
    refine ⟨by omega, by omega, by omega, by omega⟩

theorem levelM_transpose (l r : DTree) (hl : l.Wf) (hr : r.Wf) :
    levelM r l = (levelM l r).transpose := by
  have hsame := sameFileNames_perm l r hl hr
  have hdiff := diffFileNames_perm l r hl hr
  unfold levelM DirM.transpose
  simp only [count_files, count_diff_eq, Prod.mk.injEq, DirM.mk.injEq]
  refine ⟨rfl, rfl, rfl, rfl, hsame.symm.length_eq, ?_, ?_, ?_, ?_, ?_⟩
  · refine sum_map_perm_congr _ _ _ _ hsame.symm ?_
    intro n hn
    have := (mem_sameFileNames l r n).mp hn
    unfold lineCountOf
    rw [this.2]
  · refine sum_map_perm_congr _ _ _ _ hdiff.symm ?_
    intro n _
    rw [compare_files_swap]
  · refine sum_map_perm_congr _ _ _ _ hdiff.symm ?_
    intro n _
    rw [compare_files_swap]
  · refine sum_map_perm_congr _ _ _ _ hdiff.symm ?_
    intro n _
    rw [compare_files_swap]
  · refine sum_map_perm_congr _ _ _ _ hdiff.symm ?_
    intro n _
    rw [compare_files_swap]

theorem compare_subdirs_eq_sum (ls rs : List (String × DTree))
    (hnd : (ls.map (·.1)).Nodup) :
    compare_subdirs ls rs =
      DirM.sum (((ls.map (·.1)).filter (fun n => (alookup rs n).isSome)).map
        (fun n => compare_dirs ((alookup ls n).getD (.node [] []))
                               ((alookup rs n).getD (.node [] [])))) := by
  induction ls with
  | nil => simp [compare_subdirs, DirM.sum]
  | cons p rest ih =>
    obtain ⟨n, tl⟩ := p
    rw [compare_subdirs]
    simp only [List.map_cons] at hnd ⊢
    have hnotin : ¬ n ∈ rest.map (·.1) := (List.nodup_cons.mp hnd).1
    have hnd' : (rest.map (·.1)).Nodup := (List.nodup_cons.mp hnd).2
    have hcongr : ((rest.map (·.1)).filter (fun m => (alookup rs m).isSome)).map
        (fun m => compare_dirs ((alookup ((n, tl) :: rest) m).getD (.node [] []))
                               ((alookup rs m).getD (.node [] []))) =
        ((rest.map (·.1)).filter (fun m => (alookup rs m).isSome)).map
        (fun m => compare_dirs ((alookup rest m).getD (.node [] []))
                               ((alookup rs m).getD (.node [] []))) := by
      refine List.map_congr_left ?_
      intro m hm
      have hmem : m ∈ rest.map (·.1) := List.mem_of_mem_filter hm
      have hne : ¬ n = m := fun he => hnotin (he ▸ hmem)
      rw [alookup, if_neg hne]
    cases hrs : alookup rs n with
    | none =>
      have : ((alookup rs n).isSome) = false := by simp [hrs]
      rw [List.filter_cons_of_neg (by simp [hrs])]
      rw [hcongr, ← ih hnd', DirM.zero_add]
    | some tr =>
      rw [List.filter_cons_of_pos (by simp [hrs])]
      simp only [List.map_cons, DirM.sum_cons]
      rw [hcongr, ← ih hnd']
      congr 1
      rw [alookup]
      simp [hrs]

theorem compare_subdirs_transpose (ls rs : List (String × DTree))
    (hndl : (ls.map (·.1)).Nodup) (hndr : (rs.map (·.1)).Nodup)
    (hwr : ∀ p ∈ rs, DTree.Wf p.2)
    (ih : ∀ p ∈ ls, ∀ r' : DTree, r'.Wf →
      compare_dirs r' p.2 = (compare_dirs p.2 r').transpose) :
    compare_subdirs rs ls = (compare_subdirs ls rs).transpose := by
  rw [compare_subdirs_eq_sum rs ls hndr, compare_subdirs_eq_sum ls rs hndl]
  rw [DirM.transpose_sum, List.map_map]
  have hperm : ((rs.map (·.1)).filter (fun m => (alookup ls m).isSome)).Perm
      ((ls.map (·.1)).filter (fun m => (alookup rs m).isSome)) := by
    rw [List.perm_ext_iff_of_nodup (hndr.filter _) (hndl.filter _)]
    intro m
    rw [List.mem_filter, List.mem_filter, ← alookup_isSome_iff_mem,
      ← alookup_isSome_iff_mem]
    constructor
    · intro ⟨h1, h2⟩
      exact ⟨by simpa using h2, by simpa using h1⟩
    · intro ⟨h1, h2⟩
      exact ⟨by simpa using h2, by simpa using h1⟩
  rw [DirM.sum_perm _ _ (hperm.map
    (fun n => compare_dirs ((alookup rs n).getD (.node [] []))
                           ((alookup ls n).getD (.node [] []))))]
  congr 1
  refine List.map_congr_left ?_
  intro m hm
  have hmls : m ∈ ls.map (·.1) := List.mem_of_mem_filter hm
  have hrs : (alookup rs m).isSome := by
    have := (List.mem_filter.mp hm).2
    simpa using this
  have hls : (alookup ls m).isSome := (alookup_isSome_iff_mem ls m).mpr hmls
  obtain ⟨tl, htl⟩ := Option.isSome_iff_exists.mp hls
  obtain ⟨tr, htr⟩ := Option.isSome_iff_exists.mp hrs
  have hmem : (m, tl) ∈ ls := alookup_mem _ _ _ htl
  have hwtr : tr.Wf := hwr (m, tr) (alookup_mem _ _ _ htr)
  simp only [Function.comp_apply]
  rw [htl, htr]
  simp only [Option.getD_some]
  exact ih (m, tl) hmem tr hwtr

/-- Swapping the two directories of `_compare_dirs` transposes the metrics
record (for well-formed directory trees). -/
theorem compare_dirs_transpose (l : DTree) (hl : l.Wf) :
    ∀ r : DTree, r.Wf → compare_dirs r l = (compare_dirs l r).transpose := by
  induction hl with
  | node fs ds hnd hsub ih =>
    intro r hr
    have hwfl : DTree.Wf (.node fs ds) := .node fs ds hnd hsub
    rw [compare_dirs, compare_dirs]
    rw [DirM.transpose_add]
    have h1 : levelM r (.node fs ds) = (levelM (.node fs ds) r).transpose :=
      levelM_transpose _ _ hwfl hr
    have h2 : compare_subdirs r.dirs (DTree.node fs ds).dirs =
        (compare_subdirs (DTree.node fs ds).dirs r.dirs).transpose := by
      refine compare_subdirs_transpose _ _ ?_ ?_ ?_ ?_
      · exact DTree.Wf.dirs_nodup _ hwfl
      · exact DTree.Wf.dirs_nodup _ hr
      · exact DTree.Wf.sub _ hr
      · intro p hp r' hr'
        exact ih p (by simpa [DTree.dirs] using hp) r' hr'
    rw [h1, h2]

/-- C8: swapping the sides transposes the metrics: the left-only file and
line counts of `compare(A, B)` equal the right-only counts of
`compare(B, A)` and vice versa, and the added-lines total of
`compare(A, B)` equals the removed-lines total of `compare(B, A)` (and
conversely), for well-formed directory trees and any comparator
configuration. -/
theorem claim_C8_swap_sides (kinds : List String) (A B : DTree) (hA : A.Wf) (hB : B.Wf) :
    mlookup (BaseDir.compare kinds A B) "left_files" =
      mlookup (BaseDir.compare kinds B A) "right_files" ∧
    mlookup (BaseDir.compare kinds A B) "left_lines" =
      mlookup (BaseDir.compare kinds B A) "right_lines" ∧
    mlookup (BaseDir.compare kinds A B) "right_files" =
      mlookup (BaseDir.compare kinds B A) "left_files" ∧
    mlookup (BaseDir.compare kinds A B) "right_lines" =
      mlookup (BaseDir.compare kinds B A) "left_lines" ∧
    mlookup (BaseDir.compare kinds A B) "added_lines" =
      mlookup (BaseDir.compare kinds B A) "removed_lines" ∧
    mlookup (BaseDir.compare kinds A B) "removed_lines" =
      mlookup (BaseDir.compare kinds B A) "added_lines" := by
  have ht : compare_dirs B A = (compare_dirs A B).transpose :=
    compare_dirs_transpose A hA B hB
  have haAB := compare_lookup_always kinds A B
  have haBA := compare_lookup_always kinds B A
  refine ⟨?_, ?_, ?_, ?_, ?_, ?_⟩
  · by_cases hd : "diff" ∈ kinds
    · rw [(compare_lookup_diff_full kinds A B hd).1,
        (compare_lookup_diff_full kinds B A hd).2.2.1, ht]
      rfl
    · rw [(compare_lookup_no_diff kinds A B hd).1,
        (compare_lookup_no_diff kinds B A hd).2.2.1]
  · by_cases hd : "diff" ∈ kinds
    · rw [(compare_lookup_diff_full kinds A B hd).2.1,
        (compare_lookup_diff_full kinds B A hd).2.2.2.1, ht]
      rfl
    · rw [(compare_lookup_no_diff kinds A B hd).2.1,
        (compare_lookup_no_diff kinds B A hd).2.2.2.1]
  · by_cases hd : "diff" ∈ kinds
    · rw [(compare_lookup_diff_full kinds A B hd).2.2.1,
        (compare_lookup_diff_full kinds B A hd).1, ht]
      rfl
    · rw [(compare_lookup_no_diff kinds A B hd).2.2.1,
        (compare_lookup_no_diff kinds B A hd).1]
  · by_cases hd : "diff" ∈ kinds
    · rw [(compare_lookup_diff_full kinds A B hd).2.2.2.1,
        (compare_lookup_diff_full kinds B A hd).2.1, ht]
      rfl
    · rw [(compare_lookup_no_diff kinds A B hd).2.2.2.1,
        (compare_lookup_no_diff kinds B A hd).2.1]
  · rw [haAB.2.1, haBA.2.2.1, ht]
    rfl
  · rw [haAB.2.2.1, haBA.2.1, ht]
    rfl

theorem exBase_wf : exBase.Wf := by
  unfold exBase
  refine .node _ _ ?_ ?_
  · simp [DTree.names, DTree.files, DTree.dirs]
  · intro p hp
    cases hp

theorem exTarget_wf : exTarget.Wf := by
  unfold exTarget
  refine .node _ _ ?_ ?_
  · simp [DTree.names, DTree.files, DTree.dirs]
  · intro p hp
    cases hp

/-- Witness for C8 at the concrete scenario trees. -/
theorem claim_C8_swap_sides_witness :
    mlookup (BaseDir.compare ["diff"] exBase exTarget) "left_files" =
      mlookup (BaseDir.compare ["diff"] exTarget exBase) "right_files" ∧
    mlookup (BaseDir.compare ["diff"] exBase exTarget) "added_lines" =
      mlookup (BaseDir.compare ["diff"] exTarget exBase) "removed_lines" :=
  ⟨(claim_C8_swap_sides ["diff"] exBase exTarget exBase_wf exTarget_wf).1,
   (claim_C8_swap_sides ["diff"] exBase exTarget exBase_wf exTarget_wf).2.2.2.2.1⟩

/-- Witness for C10 at a concrete repository, store and world. -/
theorem claim_C10_checkout_copy_witness :
    Repo.checkout exRepo exWorldHit 0 (some "store/aaa") = (some "store/aaa", exWorldHit) ∧
    Repo.checkout exRepo exWorldMiss 0 (some "store/aaa") =
      (some "store/aaa",
       { repoTree := exWorldMiss.repoTree,
         outDirs := exWorldMiss.outDirs ++
           [("store/aaa", exRepo.revTree (exRepo.commits.getD 0 ("", "")).1)],
         gitCalls := exWorldMiss.gitCalls + 1 }) ∧
    (compare_checkouts exRepo ["same"] "store" exWorldHit 0 1).1 =
      BaseDir.compare ["same"] exStale (exRepo.revTree (exRepo.commits.getD 1 ("", "")).1) := by
  refine ⟨?_, ?_, ?_⟩
  · exact (claim_C10_checkout_copy exRepo exWorldHit 0 "store/aaa" ["same"] "store" 0 1).1
      (by simp [exWorldHit, alookup])
  · exact (claim_C10_checkout_copy exRepo exWorldMiss 0 "store/aaa" ["same"] "store" 0 1).2.1
      (by simp [exWorldMiss, alookup])
  · exact (claim_C10_checkout_copy exRepo exWorldHit 0 "store/aaa" ["same"] "store" 0 1).2.2
      exStale (by simp [exWorldHit, exRepo, alookup])

/-! ### C1 and C2: the band loop of `closest_range` -/

theorem cle_refl (fn : CFn) (a : Nat) : cle fn a a := by
  cases fn <;> simp [cle]

theorem cle_trans (fn : CFn) (a b c : Nat) (h1 : cle fn a b) (h2 : cle fn b c) :
    cle fn a c := by
  cases fn <;> simp [cle] at * <;> omega

theorem cle_total (fn : CFn) (a b : Nat) : cle fn a b ∨ cle fn b a := by
  cases fn <;> simp [cle] <;> omega

theorem clt_of_cle_ne (fn : CFn) (a b : Nat) (h : cle fn a b) (hne : ¬ a = b) :
    clt fn a b := by
  cases fn <;> simp [cle, clt] at * <;> omega

theorem clt_cle_trans (fn : CFn) (a b c : Nat) (h1 : clt fn a b) (h2 : cle fn b c) :
    clt fn a c := by
  cases fn <;> simp [cle, clt] at * <;> omega

theorem cle_clt_trans (fn : CFn) (a b c : Nat) (h1 : cle fn a b) (h2 : clt fn b c) :
    clt fn a c := by
  cases fn <;> simp [cle, clt] at * <;> omega

theorem cle_of_clt (fn : CFn) (a b : Nat) (h : clt fn a b) : cle fn a b := by
  cases fn <;> simp [cle, clt] at * <;> omega

theorem clt_of_not_cle (fn : CFn) (a b : Nat) (h : ¬ cle fn a b) : clt fn b a := by
  cases fn <;> simp [cle, clt] at * <;> omega

theorem closerEq_iff_cle (fn : CFn) (a b : Nat) : closerEq fn a b = true ↔ cle fn a b := by
  cases fn <;> simp [closerEq, cle]

theorem lexBetter_trans (fn : CFn) (p q s : Nat × Nat)
    (h1 : lexBetter fn p q) (h2 : lexBetter fn q s) : lexBetter fn p s := by
  rcases h1 with h1 | ⟨h1, h1'⟩ <;> rcases h2 with h2 | ⟨h2, h2'⟩
  · exact Or.inl (clt_cle_trans fn _ _ _ h1 (cle_of_clt fn _ _ h2))
  · exact Or.inl (h2 ▸ h1)
  · exact Or.inl (h1 ▸ h2)
  · exact Or.inr ⟨h1.trans h2, lt_trans h2' h1'⟩

theorem cle_of_lexBetter (fn : CFn) (p q : Nat × Nat) (h : lexBetter fn p q) :
    cle fn p.2 q.2 := by
  rcases h with h | ⟨h, _⟩
  · exact cle_of_clt fn _ _ h
  · exact h ▸ cle_refl fn _

theorem foldl_min_le (l : List Nat) (a : Nat) :
    l.foldl min a ≤ a ∧ ∀ v ∈ l, l.foldl min a ≤ v := by
  induction l generalizing a with
  | nil => simp
  | cons x rest ih =>
    obtain ⟨h1, h2⟩ := ih (min a x)
    refine ⟨le_trans h1 (by omega), ?_⟩
    intro v hv
    rcases List.mem_cons.mp hv with h | h
    · subst h
      exact le_trans h1 (by omega)
    · exact h2 v h

theorem foldl_min_mem (l : List Nat) (a : Nat) :
    l.foldl min a = a ∨ l.foldl min a ∈ l := by
  induction l generalizing a with
  | nil => simp
  | cons x rest ih =>
    rcases ih (min a x) with h | h
    · simp only [List.foldl_cons]
      rcases Nat.le_total a x with hax | hax
      · rw [h, min_eq_left hax]
        exact Or.inl rfl
      · rw [h, min_eq_right hax]
        exact Or.inr (List.mem_cons_self _ _)
    · exact Or.inr (List.mem_cons_of_mem _ h)

theorem foldl_max_le (l : List Nat) (a : Nat) :
    a ≤ l.foldl max a ∧ ∀ v ∈ l, v ≤ l.foldl max a := by
  induction l generalizing a with
  | nil => simp
  | cons x rest ih =>
    obtain ⟨h1, h2⟩ := ih (max a x)
    refine ⟨le_trans (by omega) h1, ?_⟩
    intro v hv
    rcases List.mem_cons.mp hv with h | h
    · subst h
      exact le_trans (by omega) h1
    · exact h2 v h

theorem foldl_max_mem (l : List Nat) (a : Nat) :
    l.foldl max a = a ∨ l.foldl max a ∈ l := by
  induction l generalizing a with
  | nil => simp
  | cons x rest ih =>
    rcases ih (max a x) with h | h
    · simp only [List.foldl_cons]
      rcases Nat.le_total a x with hax | hax
      · rw [h, max_eq_right hax]
        exact Or.inr (List.mem_cons_self _ _)
      · rw [h, max_eq_left hax]
        exact Or.inl rfl
    · exact Or.inr (List.mem_cons_of_mem _ h)

theorem closestVal_mem (fn : CFn) (l : List Nat) (h : l ≠ []) : closestVal fn l ∈ l := by
  cases l with
  | nil => cases h rfl
  | cons v rest =>
    cases fn with
    | cmin =>
      simp only [closestVal, pyFold]
      rcases foldl_min_mem rest v with h | h
      · rw [h]; exact List.mem_cons_self _ _
      · exact List.mem_cons_of_mem _ h
    | cmax =>
      simp only [closestVal, pyFold]
      rcases foldl_max_mem rest v with h | h
      · rw [h]; exact List.mem_cons_self _ _
      · exact List.mem_cons_of_mem _ h

theorem closestVal_le (fn : CFn) (l : List Nat) (v : Nat) (hv : v ∈ l) :
    cle fn (closestVal fn l) v := by
  cases l with
  | nil => cases hv
  | cons x rest =>
    rcases List.mem_cons.mp hv with h | h
    · subst h
      cases fn with
      | cmin => exact (foldl_min_le rest v).1
      | cmax => exact (foldl_max_le rest v).1
    · cases fn with
      | cmin => exact (foldl_min_le rest x).2 v h
      | cmax => exact (foldl_max_le rest x).2 v h

theorem farthestVal_mem (fn : CFn) (l : List Nat) (h : l ≠ []) : farthestVal fn l ∈ l := by
  cases fn with
  | cmin => exact closestVal_mem .cmax l h
  | cmax => exact closestVal_mem .cmin l h

theorem farthestVal_ge (fn : CFn) (l : List Nat) (v : Nat) (hv : v ∈ l) :
    cle fn v (farthestVal fn l) := by
  cases fn with
  | cmin => exact closestVal_le .cmax l v hv
  | cmax => exact closestVal_le .cmin l v hv

theorem idxOfN_lt_length (l : List Nat) (v : Nat) (h : v ∈ l) : idxOfN l v < l.length := by
  induction l with
  | nil => cases h
  | cons x rest ih =>
    rw [idxOfN]
    by_cases hx : x = v
    · simp [hx]
    · rcases List.mem_cons.mp h with h' | h'
      · exact absurd h'.symm hx
      · simp only [if_neg hx, List.length_cons]
        exact Nat.succ_lt_succ (ih h')

theorem idxOfN_get (l : List Nat) (v : Nat) (h : v ∈ l) :
    l.get ⟨idxOfN l v, idxOfN_lt_length l v h⟩ = v := by
  induction l with
  | nil => cases h
  | cons x rest ih =>
    by_cases hx : x = v
    · simp [idxOfN, hx]
    · rcases List.mem_cons.mp h with h' | h'
      · exact absurd h'.symm hx
      · simp only [idxOfN, if_neg hx]
        exact ih h'

theorem idxOfN_first (l : List Nat) (v : Nat) :
    ∀ (i : Nat) (hi : i < l.length), i < idxOfN l v → ¬ l.get ⟨i, hi⟩ = v := by
  induction l with
  | nil => intro i hi; cases hi
  | cons x rest ih =>
    intro i hi hlt
    by_cases hx : x = v
    · rw [idxOfN, if_pos hx] at hlt
      omega
    · rw [idxOfN, if_neg hx] at hlt
      cases i with
      | zero => simpa using hx
      | succ i' =>
        have hi' : i' < rest.length := by simpa using hi
        have hget : (x :: rest).get ⟨i' + 1, hi⟩ = rest.get ⟨i', hi'⟩ := rfl
        rw [hget]
        exact ih i' hi' (by omega)

theorem map_eraseIdx {α β : Type} (l : List α) (f : α → β) (i : Nat) :
    (l.eraseIdx i).map f = (l.map f).eraseIdx i := by
  induction l generalizing i with
  | nil => rfl
  | cons a rest ih =>
    cases i with
    | zero => rfl
    | succ j => simp [List.eraseIdx, ih]

theorem eq_get_of_not_mem_eraseIdx {α : Type} (l : List α) (j : Nat) (hj : j < l.length)
    (x : α) (hx : x ∈ l) (hni : ¬ x ∈ l.eraseIdx j) : x = l.get ⟨j, hj⟩ := by
  induction l generalizing j with
  | nil => cases hx
  | cons a rest ih =>
    cases j with
    | zero =>
      simp only [List.eraseIdx] at hni
      rcases List.mem_cons.mp hx with h | h
      · exact h
      · exact absurd h hni
    | succ j' =>
      simp only [List.eraseIdx] at hni
      rcases List.mem_cons.mp hx with h | h
      · exact absurd (h ▸ List.mem_cons_self a _) hni
      · simp only [List.length_cons] at hj
        exact ih j' (by omega) h (fun hc => hni (List.mem_cons_of_mem a hc))

theorem get_not_mem_eraseIdx {α : Type} (l : List α) (hnd : l.Nodup) (j : Nat)
    (hj : j < l.length) : ¬ l.get ⟨j, hj⟩ ∈ l.eraseIdx j := by
  induction l generalizing j with
  | nil => cases hj
  | cons a rest ih =>
    cases j with
    | zero =>
      simp only [List.get, List.eraseIdx]
      exact (List.nodup_cons.mp hnd).1
    | succ j' =>
      simp only [List.get, List.eraseIdx]
      intro hc
      rcases List.mem_cons.mp hc with h | h
      · have : rest.get ⟨j', by simpa using hj⟩ ∈ rest := rest.get_mem _ _
        exact (List.nodup_cons.mp hnd).1 (h ▸ this)
      · exact ih (List.nodup_cons.mp hnd).2 j' _ h

theorem pairs_eq_of_fst_eq {β : Type} (l : List (Nat × β)) (hnd : (l.map (·.1)).Nodup)
    (p q : Nat × β) (hp : p ∈ l) (hq : q ∈ l) (hfst : p.1 = q.1) : p = q := by
  induction l with
  | nil => cases hp
  | cons a rest ih =>
    simp only [List.map_cons, List.nodup_cons] at hnd
    rcases List.mem_cons.mp hp with h1 | h1 <;> rcases List.mem_cons.mp hq with h2 | h2
    · rw [h1, h2]
    · exfalso
      apply hnd.1
      rw [← h1, hfst]
      exact List.mem_map_of_mem (·.1) h2
    · exfalso
      apply hnd.1
      rw [← h2, ← hfst]
      exact List.mem_map_of_mem (·.1) h1
    · exact ih hnd.2 h1 h2

theorem zip_map_fst_snd {α β : Type} (l : List (α × β)) :
    (l.map (·.1)).zip (l.map (·.2)) = l := by
  induction l with
  | nil => rfl
  | cons p rest ih => simp [ih]

theorem get_map_snd (l : List (Nat × Nat)) (i : Nat) (h : i < l.length) :
    (l.map (·.2)).get ⟨i, by simpa using h⟩ = (l.get ⟨i, h⟩).2 := by
  simp

theorem get_map_fst (l : List (Nat × Nat)) (i : Nat) (h : i < l.length) :
    (l.map (·.1)).get ⟨i, by simpa using h⟩ = (l.get ⟨i, h⟩).1 := by
  simp

theorem keys_nodup_of_sorted (l : List (Nat × Nat))
    (h : (l.map (·.1)).Pairwise (· < ·)) : (l.map (·.1)).Nodup :=
  List.Pairwise.imp (fun hab => Nat.ne_of_lt hab) h

/-- The band-loop step maintains the band invariant when fed the pairs in
strictly increasing sequence order. -/
theorem pband_step_inv (fn : CFn) (k : Nat) (seen band : List (Nat × Nat)) (p : Nat × Nat)
    (hInv : BandInv fn k seen band)
    (hseen : (seen.map (·.1)).Pairwise (· < ·))
    (hnew : ∀ q ∈ seen, q.1 < p.1) :
    BandInv fn k (seen ++ [p]) (pband_step fn k band p) := by
  have hbk_lt : ∀ q ∈ band, q.1 < p.1 := fun q hq => hnew q (hInv.sub hq)
  have hbkeys_nodup : (band.map (·.1)).Nodup := keys_nodup_of_sorted band hInv.sorted
  have hband_nodup : band.Nodup := List.Nodup.of_map _ hbkeys_nodup
  have hskeys_nodup : (seen.map (·.1)).Nodup := keys_nodup_of_sorted seen hseen
  rw [pband_step]
  by_cases hlen : band.length ≤ k
  · rw [if_pos hlen]
    have hbl : band.length = seen.length := by
      have hc := hInv.card
      omega
    have hseen_sub : ∀ x ∈ seen, x ∈ band := by
      have hsp : band.Subperm seen := hband_nodup.subperm hInv.sub
      have hperm : band.Perm seen := hsp.perm_of_length_le (le_of_eq hbl.symm)
      intro x hx
      exact hperm.mem_iff.mpr hx
    refine ⟨?_, ?_, ?_, ?_⟩
    · simp only [List.length_append, List.length_cons, List.length_nil]
      have hc := hInv.card
      omega
    · rw [List.map_append]
      apply List.pairwise_append.mpr
      refine ⟨hInv.sorted, by simp, ?_⟩
      intro a ha b hb
      simp only [List.map_cons, List.map_nil, List.mem_cons, List.not_mem_nil,
        or_false] at hb
      subst hb
      obtain ⟨q, hq, rfl⟩ := List.mem_map.mp ha
      exact hbk_lt q hq
    · intro q hq
      rcases List.mem_append.mp hq with h | h
      · exact List.mem_append.mpr (Or.inl (hInv.sub h))
      · exact List.mem_append.mpr (Or.inr h)
    · intro x hx hxnot q hq
      exfalso
      apply hxnot
      rw [List.map_append]
      rcases List.mem_append.mp hx with h | h
      · exact List.mem_append.mpr (Or.inl (List.mem_map_of_mem _ (hseen_sub x h)))
      · simp only [List.mem_singleton] at h
        subst h
        simp
  · rw [if_neg hlen]
    have hbl : band.length = k + 1 := by
      have hc := hInv.card
      omega
    have hbne : (band.map (·.2)) ≠ [] := by
      intro h
      have : band.length = 0 := by simpa using congrArg List.length h
      omega
    have hfarmem : farthestVal fn (band.map (·.2)) ∈ band.map (·.2) :=
      farthestVal_mem _ _ hbne
    have hjlt : idxOfN (band.map (·.2)) (farthestVal fn (band.map (·.2))) < band.length := by
      have := idxOfN_lt_length _ _ hfarmem
      simpa using this
    have hwval :
        (band.get ⟨idxOfN (band.map (·.2)) (farthestVal fn (band.map (·.2))), hjlt⟩).2 =
        farthestVal fn (band.map (·.2)) := by
      have h1 := idxOfN_get (band.map (·.2)) _ hfarmem
      rw [get_map_snd band _ hjlt] at h1
      exact h1
    have hwmem : band.get ⟨idxOfN (band.map (·.2)) (farthestVal fn (band.map (·.2))), hjlt⟩
        ∈ band := band.get_mem _ _
    have hbeats : ∀ q ∈ band,
        ¬ q = band.get ⟨idxOfN (band.map (·.2)) (farthestVal fn (band.map (·.2))), hjlt⟩ →
        lexBetter fn q
          (band.get ⟨idxOfN (band.map (·.2)) (farthestVal fn (band.map (·.2))), hjlt⟩) := by
      intro q hq hneq
      obtain ⟨i, hi⟩ := List.mem_iff_get.mp hq
      have hqv : cle fn q.2 (farthestVal fn (band.map (·.2))) :=
        farthestVal_ge fn _ _ (List.mem_map_of_mem _ hq)
      by_cases hv : q.2 = farthestVal fn (band.map (·.2))
      · have hine : ¬ (i : Nat) = idxOfN (band.map (·.2)) (farthestVal fn (band.map (·.2))) := by
          intro he
          apply hneq
          rw [← hi]
          congr 1
          exact Fin.ext he
        have hnotlt : ¬ (i : Nat) < idxOfN (band.map (·.2)) (farthestVal fn (band.map (·.2))) := by
          intro hlt'
          have hilt : (i : Nat) < (band.map (·.2)).length := by simpa using i.isLt
          apply idxOfN_first (band.map (·.2)) _ i hilt hlt'
          rw [get_map_snd band _ (by simpa using i.isLt)]
          have : band.get ⟨(i : Nat), by simpa using i.isLt⟩ = band.get i := by
            congr 1
          rw [this, hi, hv]
        have hjlti : idxOfN (band.map (·.2)) (farthestVal fn (band.map (·.2))) < (i : Nat) := by
          omega
        have hpw := (List.pairwise_map.mp hInv.sorted)
        have hkey := List.pairwise_iff_get.mp hpw
          ⟨idxOfN (band.map (·.2)) (farthestVal fn (band.map (·.2))), hjlt⟩ i hjlti
        refine Or.inr ⟨?_, ?_⟩
        · rw [hv, hwval]
        · rw [← hi]
          exact hkey
      · refine Or.inl (clt_of_cle_ne fn _ _ ?_ ?_)
        · rw [hwval]
          exact hqv
        · rw [hwval]
          exact hv
    by_cases hcl : closerEq fn p.2 (farthestVal fn (band.map (·.2)))
    · rw [if_pos hcl]
      have hple : cle fn p.2 (farthestVal fn (band.map (·.2))) :=
        (closerEq_iff_cle fn _ _).mp hcl
      have hbeats_p : lexBetter fn p
          (band.get ⟨idxOfN (band.map (·.2)) (farthestVal fn (band.map (·.2))), hjlt⟩) := by
        by_cases hv : p.2 = farthestVal fn (band.map (·.2))
        · refine Or.inr ⟨by rw [hv, hwval], hbk_lt _ hwmem⟩
        · refine Or.inl (clt_of_cle_ne fn _ _ (by rw [hwval]; exact hple) (by rw [hwval]; exact hv))
      have herlen : (band.eraseIdx
          (idxOfN (band.map (·.2)) (farthestVal fn (band.map (·.2))))).length = k := by
        rw [List.length_eraseIdx]
        simp only [hjlt, if_pos]
        omega
      refine ⟨?_, ?_, ?_, ?_⟩
      · simp only [List.length_append, List.length_cons, List.length_nil, herlen]
        have hsl : k + 1 ≤ seen.length := by
          have hc := hInv.card
          omega
        omega
      · rw [List.map_append, map_eraseIdx]
        apply List.pairwise_append.mpr
        refine ⟨hInv.sorted.sublist (List.eraseIdx_sublist _ _), by simp, ?_⟩
        intro a ha b hb
        simp only [List.map_cons, List.map_nil, List.mem_cons, List.not_mem_nil,
          or_false] at hb
        subst hb
        have ha' : a ∈ band.map (·.1) := (List.eraseIdx_sublist _ _).subset ha
        obtain ⟨q, hq, rfl⟩ := List.mem_map.mp ha'
        exact hbk_lt q hq
      · intro q hq
        rcases List.mem_append.mp hq with h | h
        · exact List.mem_append.mpr
            (Or.inl (hInv.sub ((List.eraseIdx_sublist _ _).subset h)))
        · exact List.mem_append.mpr (Or.inr h)
      · intro x hx hxnot q hq
        have hxp : ¬ x.1 = p.1 := by
          intro he
          apply hxnot
          rw [List.map_append, he]
          simp
        have hxseen : x ∈ seen := by
          rcases List.mem_append.mp hx with h | h
          · exact h
          · simp only [List.mem_singleton] at h
            exfalso
            exact hxp (by rw [h])
        by_cases hxband : x.1 ∈ band.map (·.1)
        · -- x is the evicted worst element
          have hxnotmem : ¬ x.1 ∈ (band.eraseIdx
              (idxOfN (band.map (·.2)) (farthestVal fn (band.map (·.2))))).map (·.1) := by
            intro hc
            apply hxnot
            rw [List.map_append]
            exact List.mem_append.mpr (Or.inl hc)
          rw [map_eraseIdx] at hxnotmem
          have hxkey : x.1 = (band.map (·.1)).get ⟨idxOfN (band.map (·.2))
              (farthestVal fn (band.map (·.2))), by simpa using hjlt⟩ :=
            eq_get_of_not_mem_eraseIdx _ _ _ _ hxband hxnotmem
          rw [get_map_fst band _ hjlt] at hxkey
          have hxw : x = band.get ⟨idxOfN (band.map (·.2))
              (farthestVal fn (band.map (·.2))), hjlt⟩ := by
            refine pairs_eq_of_fst_eq seen hskeys_nodup _ _ hxseen
              (hInv.sub hwmem) hxkey
          subst hxw
          rcases List.mem_append.mp hq with h | h
          · have hqb : q ∈ band := (List.eraseIdx_sublist _ _).subset h
            have hqne : ¬ q = band.get ⟨idxOfN (band.map (·.2))
                (farthestVal fn (band.map (·.2))), hjlt⟩ := by
              intro he
              have := get_not_mem_eraseIdx band hband_nodup _ hjlt
              rw [← he] at this
              exact this h
            exact hbeats q hqb hqne
          · simp only [List.mem_singleton] at h
            subst h
            exact hbeats_p
        · -- x was already outside the old band
          have hold : ∀ q ∈ band, lexBetter fn q x := hInv.topk x hxseen hxband
          rcases List.mem_append.mp hq with h | h
          · exact hold q ((List.eraseIdx_sublist _ _).subset h)
          · simp only [List.mem_singleton] at h
            subst h
            exact lexBetter_trans fn _ _ _ hbeats_p (hold _ hwmem)
    · rw [if_neg hcl]
      have hfar_lt : clt fn (farthestVal fn (band.map (·.2))) p.2 := by
        apply clt_of_not_cle
        intro hc
        exact hcl ((closerEq_iff_cle fn _ _).mpr hc)
      refine ⟨?_, ?_, hInv.sub.trans (by intro a ha; exact List.mem_append.mpr (Or.inl ha)), ?_⟩
      · simp only [List.length_append, List.length_cons, List.length_nil]
        have hc := hInv.card
        omega
      · exact hInv.sorted
      · intro x hx hxnot q hq
        rcases List.mem_append.mp hx with h | h
        · exact hInv.topk x h hxnot q hq
        · simp only [List.mem_singleton] at h
          subst h
          refine Or.inl ?_
          have hqv : cle fn q.2 (farthestVal fn (band.map (·.2))) :=
            farthestVal_ge fn _ _ (List.mem_map_of_mem _ hq)
          exact cle_clt_trans fn _ _ _ hqv hfar_lt

theorem bandInv_init (fn : CFn) (k : Nat) : BandInv fn k [] [] := by
  refine ⟨by simp, by simp, by simp, ?_⟩
  intro p hp
  cases hp

theorem pband_fold_inv (fn : CFn) (k : Nat) :
    ∀ (rest seen band : List (Nat × Nat)),
      BandInv fn k seen band →
      ((seen ++ rest).map (·.1)).Pairwise (· < ·) →
      BandInv fn k (seen ++ rest) (rest.foldl (pband_step fn k) band) := by
  intro rest
  induction rest with
  | nil =>
    intro seen band hInv _
    simpa using hInv
  | cons p rest' ih =>
    intro seen band hInv hsorted
    have hsorted' : ((seen ++ [p]) ++ rest').map (·.1) |>.Pairwise (· < ·) := by
      have : (seen ++ [p]) ++ rest' = seen ++ p :: rest' := by simp
      rw [this]
      exact hsorted
    have hsplit := List.pairwise_append.mp (by
      rw [List.map_append] at hsorted
      exact hsorted)
    have hsp : (seen.map (·.1)).Pairwise (· < ·) := hsplit.1
    have hnew : ∀ q ∈ seen, q.1 < p.1 := by
      intro q hq
      exact hsplit.2.2 q.1 (List.mem_map_of_mem _ hq) p.1 (by simp)
    have hstep := pband_step_inv fn k seen band p hInv hsp hnew
    have hgoal := ih (seen ++ [p]) (pband_step fn k band p) hstep hsorted'
    have heq : (seen ++ [p]) ++ rest' = seen ++ p :: rest' := by simp
    rw [heq] at hgoal
    simpa using hgoal

theorem pbandFold_inv (fn : CFn) (k : Nat) (pairs : List (Nat × Nat))
    (hsorted : (pairs.map (·.1)).Pairwise (· < ·)) :
    BandInv fn k pairs (pbandFold fn k pairs) := by
  have h := pband_fold_inv fn k pairs [] [] (bandInv_init fn k) (by simpa)
  simpa [pbandFold] using h

theorem zip_map_snd {α β : Type} (l₁ : List α) (l₂ : List β) (h : l₁.length = l₂.length) :
    (l₁.zip l₂).map (·.2) = l₂ := by
  induction l₁ generalizing l₂ with
  | nil =>
    cases l₂ with
    | nil => rfl
    | cons b t => simp at h
  | cons a t ih =>
    cases l₂ with
    | nil => simp at h
    | cons b t' => simp [ih t' (by simpa using h)]

theorem zip_map_fst {α β : Type} (l₁ : List α) (l₂ : List β) (h : l₁.length = l₂.length) :
    (l₁.zip l₂).map (·.1) = l₁ := by
  induction l₁ generalizing l₂ with
  | nil => rfl
  | cons a t ih =>
    cases l₂ with
    | nil => simp at h
    | cons b t' => simp [ih t' (by simpa using h)]

theorem band_step_eq (fn : CFn) (k : Nat) (vs bis : List Nat) (p : Nat × Nat)
    (hlen : bis.length = vs.length) :
    band_step fn k (vs, bis) p =
      ((pband_step fn k (bis.zip vs) p).map (·.2),
       (pband_step fn k (bis.zip vs) p).map (·.1)) := by
  have hsnd : (bis.zip vs).map (·.2) = vs := zip_map_snd bis vs hlen
  have hfst : (bis.zip vs).map (·.1) = bis := zip_map_fst bis vs hlen
  have hzlen : (bis.zip vs).length = vs.length := by
    rw [List.length_zip, hlen, Nat.min_self]
  rw [band_step, pband_step]
  simp only [hsnd, hfst, hzlen]
  by_cases h1 : vs.length ≤ k
  · rw [if_pos h1, if_pos h1]
    simp [hsnd, hfst]
  · rw [if_neg h1, if_neg h1]
    by_cases h2 : closerEq fn p.2 (farthestVal fn vs)
    · rw [if_pos h2, if_pos h2]
      simp only [List.map_append, map_eraseIdx, hsnd, hfst]
      simp
    · rw [if_neg h2, if_neg h2]
      simp [hsnd, hfst]

theorem bandFold_eq_aux (fn : CFn) (k : Nat) (pairs : List (Nat × Nat)) :
    ∀ B : List (Nat × Nat),
      pairs.foldl (band_step fn k) (B.map (·.2), B.map (·.1)) =
        ((pairs.foldl (pband_step fn k) B).map (·.2),
         (pairs.foldl (pband_step fn k) B).map (·.1)) := by
  induction pairs with
  | nil => intro B; rfl
  | cons p rest ih =>
    intro B
    simp only [List.foldl_cons]
    have h1 : band_step fn k (B.map (·.2), B.map (·.1)) p =
        ((pband_step fn k B p).map (·.2), (pband_step fn k B p).map (·.1)) := by
      have := band_step_eq fn k (B.map (·.2)) (B.map (·.1)) p (by simp)
      rwa [zip_map_fst_snd B] at this
    rw [h1]
    exact ih (pband_step fn k B p)

theorem bandFold_eq (fn : CFn) (k : Nat) (pairs : List (Nat × Nat)) :
    bandFold fn k pairs =
      ((pbandFold fn k pairs).map (·.2), (pbandFold fn k pairs).map (·.1)) := by
  have h := bandFold_eq_aux fn k pairs []
  simpa [bandFold, pbandFold] using h

theorem headD_eq_get (l : List Nat) (h : l ≠ []) :
    l.headD 0 = l.get ⟨0, List.length_pos.mpr h⟩ := by
  cases l with
  | nil => exact absurd rfl h
  | cons a t => rfl

theorem getD_eq_get (l : List Nat) (i : Nat) (h : i < l.length) :
    l.getD i 0 = l.get ⟨i, h⟩ := by
  induction l generalizing i with
  | nil => cases h
  | cons a t ih =>
    cases i with
    | zero => rfl
    | succ j => exact ih j (by simpa using h)

theorem getLastD_eq_getD (l : List Nat) : l.getLastD 0 = l.getD (l.length - 1) 0 := by
  induction l with
  | nil => rfl
  | cons a t ih =>
    cases t with
    | nil => rfl
    | cons b t' =>
      have h1 : (a :: b :: t').getLastD 0 = (b :: t').getLastD 0 := rfl
      rw [h1, ih]
      have h2 : (a :: b :: t').length - 1 = ((b :: t').length - 1) + 1 := by simp
      rw [h2]
      rfl

theorem getLastD_eq_get (l : List Nat) (h : l ≠ []) :
    l.getLastD 0 = l.get ⟨l.length - 1, by
      have := List.length_pos.mpr h
      omega⟩ := by
  rw [getLastD_eq_getD]
  exact getD_eq_get l (l.length - 1) (by
    have := List.length_pos.mpr h
    omega)

theorem getLastD_mem (l : List Nat) (h : l ≠ []) : l.getLastD 0 ∈ l := by
  rw [getLastD_eq_get l h]
  exact l.get_mem _ _

theorem sorted_le_getLastD (l : List Nat) (hs : l.Pairwise (· < ·)) (x : Nat) (hx : x ∈ l) :
    x ≤ l.getLastD 0 := by
  have hne : l ≠ [] := by
    intro h
    rw [h] at hx
    cases hx
  rw [getLastD_eq_get l hne]
  obtain ⟨i, hi⟩ := List.mem_iff_get.mp hx
  rcases Nat.lt_or_ge (i : Nat) (l.length - 1) with h | h
  · have := List.pairwise_iff_get.mp hs i ⟨l.length - 1, by
      have := i.isLt
      omega⟩ h
    rw [hi] at this
    exact le_of_lt this
  · have hieq : (i : Nat) = l.length - 1 := by
      have := i.isLt
      omega
    rw [← hi]
    apply le_of_eq
    congr 1
    exact Fin.ext hieq

theorem dictAt_isSome_iff_mem (m : List (Nat × List (String × Nat))) (s : Nat) :
    (dictAt m s).isSome ↔ s ∈ m.map (·.1) := by
  induction m with
  | nil => simp [dictAt]
  | cons p rest ih =>
    by_cases h : p.1 = s
    · simp [dictAt, h]
    · simp [dictAt, h, ih, Ne.symm h]

theorem dictAt_mem (m : List (Nat × List (String × Nat))) (s : Nat) (d : List (String × Nat))
    (h : dictAt m s = some d) : (s, d) ∈ m := by
  induction m with
  | nil => simp [dictAt] at h
  | cons p rest ih =>
    obtain ⟨pk, pd⟩ := p
    by_cases hk : pk = s
    · subst hk
      simp [dictAt] at h
      subst h
      exact .head _
    · simp [dictAt, hk] at h
      exact .tail _ (ih h)

theorem valAt_mem_pairs (metrics : List (Nat × List (String × Nat))) (metric : String)
    (s : Nat) (hs : s ∈ metrics.map (·.1)) :
    (s, mlookupD ((dictAt metrics s).getD []) metric) ∈
      metrics.map (fun p => (p.1, mlookupD p.2 metric)) := by
  have hsome : (dictAt metrics s).isSome := (dictAt_isSome_iff_mem metrics s).mpr hs
  obtain ⟨d, hd⟩ := Option.isSome_iff_exists.mp hsome
  have hmem : (s, d) ∈ metrics := dictAt_mem metrics s d hd
  rw [hd]
  simpa using List.mem_map_of_mem (fun p => (p.1, mlookupD p.2 metric)) hmem

theorem sorted_headD_le (l : List Nat) (hs : l.Pairwise (· < ·)) (x : Nat) (hx : x ∈ l) :
    l.headD 0 ≤ x := by
  have hne : l ≠ [] := by
    intro h
    rw [h] at hx
    cases hx
  rw [headD_eq_get l hne]
  obtain ⟨i, hi⟩ := List.mem_iff_get.mp hx
  rcases Nat.eq_zero_or_pos (i : Nat) with h | h
  · rw [← hi]
    apply le_of_eq
    congr 1
    exact Fin.ext h.symm
  · have := List.pairwise_iff_get.mp hs ⟨0, List.length_pos.mpr hne⟩ i h
    rw [hi] at this
    exact le_of_lt this

/-- The `(values, indexes)` lists after the band loop and the two neighbour
extensions of `closest_range` are the unzipped components of a pair list `E`
that is nonempty, drawn from the memoized pairs, sorted by sequence number,
and contains the whole band. -/
theorem closest_range_ext_spec (metrics : List (Nat × List (String × Nat))) (length : Nat)
    (metric : String) (fn : CFn) (hne : metrics ≠ [])
    (hsorted : (metrics.map (·.1)).Pairwise (· < ·)) :
    ∃ E : List (Nat × Nat),
      closest_range_ext metrics length metric fn = (E.map (·.2), E.map (·.1)) ∧
      E ≠ [] ∧
      (∀ q ∈ E, q ∈ metrics.map (fun p => (p.1, mlookupD p.2 metric))) ∧
      (E.map (·.1)).Pairwise (· < ·) ∧
      (∀ q ∈ pbandFold fn length (metrics.map (fun p => (p.1, mlookupD p.2 metric))),
        q ∈ E) := by
  have hKeys : (metrics.map (fun p => (p.1, mlookupD p.2 metric))).map (·.1) =
      metrics.map (·.1) := by
    rw [List.map_map]
    exact List.map_congr_left (fun a _ => rfl)
  have hpsorted : ((metrics.map (fun p => (p.1, mlookupD p.2 metric))).map (·.1)).Pairwise
      (· < ·) := by
    rw [hKeys]
    exact hsorted
  have hB := pbandFold_inv fn length _ hpsorted
  have hplen : (metrics.map (fun p => (p.1, mlookupD p.2 metric))).length =
      metrics.length := by simp
  have hmlen : 1 ≤ metrics.length := by
    cases metrics with
    | nil => exact absurd rfl hne
    | cons a t => simp
  have hBne : pbandFold fn length (metrics.map (fun p => (p.1, mlookupD p.2 metric))) ≠ [] := by
    intro h
    have hc := hB.card
    rw [h, hplen] at hc
    simp at hc
    omega
  have hKne : metrics.map (·.1) ≠ [] := by
    cases metrics with
    | nil => exact absurd rfl hne
    | cons a t => simp
  have hKlen : 0 < (metrics.map (·.1)).length := List.length_pos.mpr hKne
  have hBsub : ∀ q ∈ pbandFold fn length (metrics.map (fun p => (p.1, mlookupD p.2 metric))),
      q ∈ metrics.map (fun p => (p.1, mlookupD p.2 metric)) := fun q hq => hB.sub hq
  have hBkeys : (pbandFold fn length
      (metrics.map (fun p => (p.1, mlookupD p.2 metric)))).map (·.1) ≠ [] := by
    intro h
    apply hBne
    cases hBB : pbandFold fn length (metrics.map (fun p => (p.1, mlookupD p.2 metric))) with
    | nil => rfl
    | cons a t =>
      rw [hBB] at h
      simp at h
  rw [closest_range_ext]
  simp only [bandFold_eq]
  split
  · rename_i hc1
    dsimp only
    -- left-extension facts
    set K := metrics.map (·.1) with hKd
    set B := pbandFold fn length (metrics.map (fun p => (p.1, mlookupD p.2 metric))) with hBd
    set b0 := (B.map (·.1)).headD 0 with hb0d
    set lsq := K.getD (idxOfN K b0 - 1) 0 with hlsqd
    set vls := mlookupD ((dictAt metrics lsq).getD []) metric with hvlsd
    have hb0B : b0 ∈ B.map (·.1) := by
      rw [hb0d, headD_eq_get _ hBkeys]
      exact (B.map _).get_mem _ _
    have hb0K : b0 ∈ K := by
      obtain ⟨q, hq, hq1⟩ := List.mem_map.mp hb0B
      have := List.mem_map_of_mem (·.1) (hBsub q hq)
      rw [← hKeys]
      rw [← hq1]
      exact this
    have hi0lt : idxOfN K b0 < K.length := idxOfN_lt_length _ _ hb0K
    have hKi0 : K.get ⟨idxOfN K b0, hi0lt⟩ = b0 := idxOfN_get _ _ hb0K
    have hi0pos : 1 ≤ idxOfN K b0 := by
      by_contra hcon
      have h0 : idxOfN K b0 = 0 := by omega
      have hh : K.headD 0 = b0 := by
        rw [headD_eq_get _ hKne]
        rw [← hKi0]
        congr 1
        exact Fin.ext h0.symm
      rw [hh] at hc1
      exact absurd hc1 (Nat.lt_irrefl b0)
    have hi0m1 : idxOfN K b0 - 1 < K.length := by omega
    have hlsq_get : lsq = K.get ⟨idxOfN K b0 - 1, hi0m1⟩ := getD_eq_get _ _ hi0m1
    have hlsqK : lsq ∈ K := by
      rw [hlsq_get]
      exact K.get_mem _ _
    have hlsq_lt : lsq < b0 := by
      have hp := List.pairwise_iff_get.mp hsorted ⟨idxOfN K b0 - 1, hi0m1⟩
        ⟨idxOfN K b0, hi0lt⟩ (by
          show idxOfN K b0 - 1 < idxOfN K b0
          omega)
      rw [hKi0] at hp
      rw [← hlsq_get] at hp
      exact hp
    have hE2sorted : (lsq :: B.map (·.1)).Pairwise (· < ·) := by
      refine List.pairwise_cons.mpr ⟨?_, hB.sorted⟩
      intro y hy
      have := sorted_headD_le _ hB.sorted y hy
      omega
    have hE2ne : (lsq :: B.map (·.1)) ≠ [] := by simp
    have hE2le := sorted_le_getLastD _ hE2sorted
    split
    · rename_i hc2
      set lastK := (lsq :: B.map (·.1)).getLastD 0 with hlkd
      set rsq := K.getD (idxOfN K lastK + 1) 0 with hrsqd
      set vrs := mlookupD ((dictAt metrics rsq).getD []) metric with hvrsd
      have hlastK_mem : lastK ∈ (lsq :: B.map (·.1)) := getLastD_mem _ hE2ne
      have hlastKK : lastK ∈ K := by
        rcases List.mem_cons.mp hlastK_mem with h | h
        · rw [h]
          exact hlsqK
        · obtain ⟨q, hq, hq1⟩ := List.mem_map.mp h
          have := List.mem_map_of_mem (·.1) (hBsub q hq)
          rw [← hKeys, ← hq1]
          exact this
      have hidx1lt : idxOfN K lastK < K.length := idxOfN_lt_length _ _ hlastKK
      have hKidx1 : K.get ⟨idxOfN K lastK, hidx1lt⟩ = lastK := idxOfN_get _ _ hlastKK
      have hidx1succ : idxOfN K lastK + 1 < K.length := by
        by_contra hcon
        have heq : idxOfN K lastK = K.length - 1 := by omega
        apply Nat.lt_irrefl lastK
        have hh : K.getLastD 0 = lastK := by
          rw [getLastD_eq_get _ hKne, ← hKidx1]
          congr 1
          exact Fin.ext heq.symm
        rw [← hh] at hc2 ⊢
        exact hc2
      have hrsq_get : rsq = K.get ⟨idxOfN K lastK + 1, hidx1succ⟩ :=
        getD_eq_get _ _ hidx1succ
      have hrsqK : rsq ∈ K := by
        rw [hrsq_get]
        exact K.get_mem _ _
      have hlastK_lt_rsq : lastK < rsq := by
        have hp := List.pairwise_iff_get.mp hsorted ⟨idxOfN K lastK, hidx1lt⟩
          ⟨idxOfN K lastK + 1, hidx1succ⟩ (by
            show idxOfN K lastK < idxOfN K lastK + 1
            omega)
        rw [hKidx1] at hp
        rw [← hrsq_get] at hp
        exact hp
      refine ⟨(lsq, vls) :: (B ++ [(rsq, vrs)]), by simp, by simp, ?_, ?_, ?_⟩
      · intro q hq
        rcases List.mem_cons.mp hq with h | h
        · rw [h, hvlsd]
          exact valAt_mem_pairs metrics metric lsq (by rw [← hKd]; exact hlsqK)
        · rcases List.mem_append.mp h with h' | h'
          · exact hBsub q h'
          · simp only [List.mem_singleton] at h'
            rw [h', hvrsd]
            exact valAt_mem_pairs metrics metric rsq (by rw [← hKd]; exact hrsqK)
      · simp only [List.map_cons, List.map_append, List.map_nil]
        refine List.pairwise_cons.mpr ⟨?_, ?_⟩
        · intro y hy
          rcases List.mem_append.mp hy with h | h
          · have := sorted_headD_le _ hB.sorted y h
            omega
          · simp only [List.mem_singleton] at h
            subst h
            have h1 : lsq ≤ lastK := hE2le lsq (List.mem_cons_self _ _)
            omega
        · apply List.pairwise_append.mpr
          refine ⟨hB.sorted, by simp, ?_⟩
          intro a ha b hb
          simp only [List.mem_singleton] at hb
          subst hb
          have h1 : a ≤ lastK := hE2le a (List.mem_cons_of_mem _ ha)
          omega
      · intro q hq
        exact List.mem_cons_of_mem _ (List.mem_append.mpr (Or.inl hq))
    · rename_i hc2
      refine ⟨(lsq, vls) :: B, by simp, by simp, ?_, ?_, ?_⟩
      · intro q hq
        rcases List.mem_cons.mp hq with h | h
        · rw [h, hvlsd]
          exact valAt_mem_pairs metrics metric lsq (by rw [← hKd]; exact hlsqK)
        · exact hBsub q h
      · simp only [List.map_cons]
        exact hE2sorted
      · intro q hq
        exact List.mem_cons_of_mem _ hq
  · rename_i hc1
    dsimp only
    set K := metrics.map (·.1) with hKd
    set B := pbandFold fn length (metrics.map (fun p => (p.1, mlookupD p.2 metric))) with hBd
    split
    · rename_i hc2
      set lastK := (B.map (·.1)).getLastD 0 with hlkd
      set rsq := K.getD (idxOfN K lastK + 1) 0 with hrsqd
      set vrs := mlookupD ((dictAt metrics rsq).getD []) metric with hvrsd
      have hE2le := sorted_le_getLastD _ hB.sorted
      have hlastK_mem : lastK ∈ B.map (·.1) := getLastD_mem _ hBkeys
      have hlastKK : lastK ∈ K := by
        obtain ⟨q, hq, hq1⟩ := List.mem_map.mp hlastK_mem
        have := List.mem_map_of_mem (·.1) (hBsub q hq)
        rw [← hKeys, ← hq1]
        exact this
      have hidx1lt : idxOfN K lastK < K.length := idxOfN_lt_length _ _ hlastKK
      have hKidx1 : K.get ⟨idxOfN K lastK, hidx1lt⟩ = lastK := idxOfN_get _ _ hlastKK
      have hidx1succ : idxOfN K lastK + 1 < K.length := by
        by_contra hcon
        have heq : idxOfN K lastK = K.length - 1 := by omega
        apply Nat.lt_irrefl lastK
        have hh : K.getLastD 0 = lastK := by
          rw [getLastD_eq_get _ hKne, ← hKidx1]
          congr 1
          exact Fin.ext heq.symm
        rw [← hh] at hc2 ⊢
        exact hc2
      have hrsq_get : rsq = K.get ⟨idxOfN K lastK + 1, hidx1succ⟩ :=
        getD_eq_get _ _ hidx1succ
      have hrsqK : rsq ∈ K := by
        rw [hrsq_get]
        exact K.get_mem _ _
      have hlastK_lt_rsq : lastK < rsq := by
        have hp := List.pairwise_iff_get.mp hsorted ⟨idxOfN K lastK, hidx1lt⟩
          ⟨idxOfN K lastK + 1, hidx1succ⟩ (by
            show idxOfN K lastK < idxOfN K lastK + 1
            omega)
        rw [hKidx1] at hp
        rw [← hrsq_get] at hp
        exact hp
      refine ⟨B ++ [(rsq, vrs)], by simp, by simp, ?_, ?_, ?_⟩
      · intro q hq
        rcases List.mem_append.mp hq with h | h
        · exact hBsub q h
        · simp only [List.mem_singleton] at h
          rw [h, hvrsd]
          exact valAt_mem_pairs metrics metric rsq (by rw [← hKd]; exact hrsqK)
      · simp only [List.map_append, List.map_cons, List.map_nil]
        apply List.pairwise_append.mpr
        refine ⟨hB.sorted, by simp, ?_⟩
        intro a ha b hb
        simp only [List.mem_cons, List.not_mem_nil, or_false] at hb
        subst hb
        have h1 : a ≤ lastK := hE2le a ha
        omega
      · intro q hq
        exact List.mem_append.mpr (Or.inl hq)
    · rename_i hc2
      refine ⟨B, rfl, hBne, fun q hq => hBsub q hq, hB.sorted, fun q hq => hq⟩

/-- What `closest_range` returns: the `(closest_index, closest_value)` pair
is a memoized pair; its value is the extremal metric value over **all**
memoized commits; and among the extended band the returned commit is the
lowest sequence number achieving that value. -/
theorem closest_range_spec (metrics : List (Nat × List (String × Nat))) (length : Nat)
    (metric : String) (fn : CFn) (hne : metrics ≠ [])
    (hsorted : (metrics.map (·.1)).Pairwise (· < ·)) :
    ((closest_range metrics length metric fn).2.2.1,
     (closest_range metrics length metric fn).2.2.2) ∈
       metrics.map (fun p => (p.1, mlookupD p.2 metric)) ∧
    (∀ p ∈ metrics.map (fun p => (p.1, mlookupD p.2 metric)),
      cle fn (closest_range metrics length metric fn).2.2.2 p.2) ∧
    (∀ q ∈ ((closest_range_ext metrics length metric fn).2).zip
        ((closest_range_ext metrics length metric fn).1),
      q.2 = (closest_range metrics length metric fn).2.2.2 →
      (closest_range metrics length metric fn).2.2.1 ≤ q.1) := by
  obtain ⟨E, hEeq, hEne, hEsub, hEsorted, hBE⟩ :=
    closest_range_ext_spec metrics length metric fn hne hsorted
  have hKeys : (metrics.map (fun p => (p.1, mlookupD p.2 metric))).map (·.1) =
      metrics.map (·.1) := by
    rw [List.map_map]
    exact List.map_congr_left (fun a _ => rfl)
  have hpsorted : ((metrics.map (fun p => (p.1, mlookupD p.2 metric))).map (·.1)).Pairwise
      (· < ·) := by
    rw [hKeys]
    exact hsorted
  have hpnodup : ((metrics.map (fun p => (p.1, mlookupD p.2 metric))).map (·.1)).Nodup :=
    keys_nodup_of_sorted _ hpsorted
  have hB := pbandFold_inv fn length _ hpsorted
  have hmlen : 1 ≤ metrics.length := by
    cases metrics with
    | nil => exact absurd rfl hne
    | cons a t => simp
  have hBne : pbandFold fn length (metrics.map (fun p => (p.1, mlookupD p.2 metric))) ≠ [] := by
    intro h
    have hc := hB.card
    rw [h] at hc
    simp at hc
    omega
  have hcr : closest_range metrics length metric fn =
      ((E.map (·.1)).headD 0, (E.map (·.1)).getLastD 0,
       (E.map (·.1)).getD (idxOfN (E.map (·.2)) (closestVal fn (E.map (·.2)))) 0,
       closestVal fn (E.map (·.2))) := by
    simp only [closest_range, hEeq]
  have hEsne : E.map (·.2) ≠ [] := by
    intro h
    apply hEne
    cases E with
    | nil => rfl
    | cons a t => simp at h
  have hcv_mem : closestVal fn (E.map (·.2)) ∈ E.map (·.2) :=
    closestVal_mem fn _ hEsne
  have hjlt2 : idxOfN (E.map (·.2)) (closestVal fn (E.map (·.2))) < (E.map (·.2)).length :=
    idxOfN_lt_length _ _ hcv_mem
  have hjltE : idxOfN (E.map (·.2)) (closestVal fn (E.map (·.2))) < E.length := by
    simpa using hjlt2
  have hjlt1 : idxOfN (E.map (·.2)) (closestVal fn (E.map (·.2))) < (E.map (·.1)).length := by
    simpa using hjltE
  have hci : (E.map (·.1)).getD (idxOfN (E.map (·.2)) (closestVal fn (E.map (·.2)))) 0 =
      (E.get ⟨idxOfN (E.map (·.2)) (closestVal fn (E.map (·.2))), hjltE⟩).1 := by
    rw [getD_eq_get _ _ hjlt1]
    exact get_map_fst E _ hjltE
  have hcv_at : (E.get ⟨idxOfN (E.map (·.2)) (closestVal fn (E.map (·.2))), hjltE⟩).2 =
      closestVal fn (E.map (·.2)) := by
    have h1 := idxOfN_get (E.map (·.2)) _ hcv_mem
    rw [get_map_snd E _ hjltE] at h1
    exact h1
  refine ⟨?_, ?_, ?_⟩
  · rw [hcr]
    simp only
    have : ((E.map (·.1)).getD (idxOfN (E.map (·.2)) (closestVal fn (E.map (·.2)))) 0,
        closestVal fn (E.map (·.2))) =
        E.get ⟨idxOfN (E.map (·.2)) (closestVal fn (E.map (·.2))), hjltE⟩ := by
      refine Prod.ext ?_ ?_
      · simp only
        exact hci
      · simp only
        exact hcv_at.symm
    rw [this]
    exact hEsub _ (E.get_mem _ _)
  · intro p hp
    rw [hcr]
    simp only
    by_cases hp1 : p.1 ∈ (pbandFold fn length
        (metrics.map (fun p => (p.1, mlookupD p.2 metric)))).map (·.1)
    · obtain ⟨q, hq, hq1⟩ := List.mem_map.mp hp1
      have hqp : q = p := pairs_eq_of_fst_eq _ hpnodup q p (hB.sub hq) hp hq1
      have hqE : q ∈ E := hBE q hq
      have : cle fn (closestVal fn (E.map (·.2))) q.2 :=
        closestVal_le fn _ _ (List.mem_map_of_mem _ hqE)
      rw [hqp] at this
      exact this
    · have htopk := hB.topk p hp hp1
      obtain ⟨q0, hq0⟩ := List.exists_mem_of_ne_nil _ hBne
      have h1 : cle fn q0.2 p.2 := cle_of_lexBetter fn _ _ (htopk q0 hq0)
      have h2 : cle fn (closestVal fn (E.map (·.2))) q0.2 :=
        closestVal_le fn _ _ (List.mem_map_of_mem _ (hBE q0 hq0))
      exact cle_trans fn _ _ _ h2 h1
  · intro q hq hq2
    rw [hcr] at hq2 ⊢
    simp only at hq2 ⊢
    rw [hEeq] at hq
    simp only [zip_map_fst_snd] at hq
    obtain ⟨i, hi⟩ := List.mem_iff_get.mp hq
    have hisnd : (E.map (·.2)).get ⟨(i : Nat), by simpa using i.isLt⟩ =
        closestVal fn (E.map (·.2)) := by
      rw [get_map_snd E _ i.isLt]
      have : E.get ⟨(i : Nat), i.isLt⟩ = E.get i := by
        congr 1
      rw [this, hi]
      exact hq2
    have hnotlt : ¬ (i : Nat) < idxOfN (E.map (·.2)) (closestVal fn (E.map (·.2))) := by
      intro hlt
      exact idxOfN_first (E.map (·.2)) _ (i : Nat) (by simpa using i.isLt) hlt hisnd
    rcases Nat.eq_or_lt_of_le (Nat.le_of_not_lt hnotlt) with heq | hlt
    · rw [hci]
      apply le_of_eq
      have : E.get ⟨idxOfN (E.map (·.2)) (closestVal fn (E.map (·.2))), hjltE⟩ = E.get i := by
        congr 1
        exact Fin.ext heq
      rw [this, hi]
    · rw [hci]
      apply le_of_lt
      have hpw := List.pairwise_iff_get.mp (List.pairwise_map.mp hEsorted)
        ⟨idxOfN (E.map (·.2)) (closestVal fn (E.map (·.2))), hjltE⟩ i hlt
      rw [hi] at hpw
      exact hpw

/-- Counterexample to claim C2: on the memoized dictionary with `diff_files`
values `9,5,5,5,5` at sequences `0..4` and bandwidth 1, sequence 1 is the
lowest-sequence commit attaining the minimal value 5, yet the band loop keeps
indexes `[3, 4]` (ties evict the *lower* sequence) and `closest_range`
finally returns sequence 2, not 1. -/
theorem claim_C2_counterexample :
    (1, 5) ∈ exMetricsTie.map (fun p => (p.1, mlookupD p.2 "diff_files")) ∧
    (bandFold .cmin 1 (exMetricsTie.map (fun p => (p.1, mlookupD p.2 "diff_files")))).2 =
      [3, 4] ∧
    closest_range exMetricsTie 1 "diff_files" .cmin = (2, 4, 2, 5) := by
  decide

/-- C2, corrected: the band kept by the loop of `closest_range` consists of
the `bandwidth+1` memoized commits that are best in the order "strictly
closer value, or equal value and *higher* sequence number" (`lexBetter`) —
on ties the *lower* sequence numbers are the ones evicted, the reverse of
the claim.  The commit finally returned is a memoized commit attaining the
true extremal value over all memoized commits, and on ties it is the lowest
sequence number *within the extended band* (not among all memoized
commits). -/
theorem claim_C2_band_and_selection (metrics : List (Nat × List (String × Nat)))
    (length : Nat) (metric : String) (fn : CFn) (hne : metrics ≠ [])
    (hsorted : (metrics.map (·.1)).Pairwise (· < ·)) :
    bandFold fn length (metrics.map (fun p => (p.1, mlookupD p.2 metric))) =
      ((pbandFold fn length (metrics.map (fun p => (p.1, mlookupD p.2 metric)))).map (·.2),
       (pbandFold fn length (metrics.map (fun p => (p.1, mlookupD p.2 metric)))).map (·.1)) ∧
    BandInv fn length (metrics.map (fun p => (p.1, mlookupD p.2 metric)))
      (pbandFold fn length (metrics.map (fun p => (p.1, mlookupD p.2 metric)))) ∧
    (((closest_range metrics length metric fn).2.2.1,
      (closest_range metrics length metric fn).2.2.2) ∈
        metrics.map (fun p => (p.1, mlookupD p.2 metric)) ∧
     (∀ p ∈ metrics.map (fun p => (p.1, mlookupD p.2 metric)),
        cle fn (closest_range metrics length metric fn).2.2.2 p.2) ∧
     (∀ q ∈ ((closest_range_ext metrics length metric fn).2).zip
          ((closest_range_ext metrics length metric fn).1),
        q.2 = (closest_range metrics length metric fn).2.2.2 →
        (closest_range metrics length metric fn).2.2.1 ≤ q.1)) := by
  have hpsorted : ((metrics.map (fun p => (p.1, mlookupD p.2 metric))).map (·.1)).Pairwise
      (· < ·) := by
    rw [List.map_map]
    have : ((fun p : Nat × Nat => p.1) ∘
        (fun p : Nat × List (String × Nat) => (p.1, mlookupD p.2 metric))) =
        (fun p : Nat × List (String × Nat) => p.1) := rfl
    rw [this]
    exact hsorted
  exact ⟨bandFold_eq fn length _, pbandFold_inv fn length _ hpsorted,
    closest_range_spec metrics length metric fn hne hsorted⟩

/-- Witness for C2 at the tie scenario: the hypotheses hold for
`exMetricsTie` and the returned `(commit, value)` pair is indeed a memoized
pair. -/
theorem claim_C2_band_and_selection_witness :
    exMetricsTie ≠ [] ∧ (exMetricsTie.map (·.1)).Pairwise (· < ·) ∧
    ((closest_range exMetricsTie 1 "diff_files" .cmin).2.2.1,
     (closest_range exMetricsTie 1 "diff_files" .cmin).2.2.2) ∈
      exMetricsTie.map (fun p => (p.1, mlookupD p.2 "diff_files")) :=
  ⟨by decide, by decide,
   (claim_C2_band_and_selection exMetricsTie 1 "diff_files" .cmin (by decide)
     (by decide)).2.2.1⟩

theorem ceilDiv_eq_one (N r : Nat) (hN : 1 ≤ N) (hr : N ≤ r) : ceilDiv N r = 1 := by
  rw [ceilDiv]
  have h1 : 1 * r ≤ N + r - 1 := by omega
  have h2 : N + r - 1 < (1 + 1) * r := by omega
  exact Nat.div_eq_of_lt_le h1 h2

theorem getD_ok_of_allOk (M : MetricsObj) (hok : allOk M) (s : Nat) :
    (M.commits.getD s defaultGCommit).ok = true := by
  rcases Nat.lt_or_ge s M.commits.length with h | h
  · rw [List.getD_eq_get _ _ h]
    exact hok _ (M.commits.get_mem _ _)
  · rw [List.getD_eq_default _ _ h]
    rfl

theorem sortedInsert_append (A : List (Nat × List (String × Nat))) (s : Nat)
    (d : List (String × Nat)) (h : ∀ k ∈ A.map (·.1), k < s) :
    sortedInsert A s d = A ++ [(s, d)] := by
  induction A with
  | nil => rfl
  | cons p rest ih =>
    have hp : p.1 < s := h p.1 (List.mem_map_of_mem _ (.head _))
    rw [sortedInsert]
    rw [if_neg (by omega)]
    rw [ih (fun k hk => h k (by simp at hk ⊢; tauto))]
    rfl

theorem rm_foldl_pure (M : MetricsObj) (hok : allOk M) (L : List Nat) :
    ∀ (A : List (Nat × List (String × Nat))) (wd : DTree) (c : Nat),
      ((A.map (·.1)) ++ L).Pairwise (· < ·) →
      (L.foldl (rm_step M) ⟨wd, A, c⟩).metrics =
        A ++ L.map (fun s => (s, pureDict M s)) := by
  induction L with
  | nil => intro A wd c _; simp
  | cons s L' ih =>
    intro A wd c hpw
    have hfresh : s ∉ A.map (·.1) := by
      intro hmem
      have := (List.pairwise_append.mp hpw).2.2 s hmem s (.head _)
      omega
    have hnone : dictAt A s = none := by
      cases h : dictAt A s with
      | none => rfl
      | some d =>
        exact absurd ((dictAt_isSome_iff_mem A s).mp (by rw [h]; rfl)) hfresh
    have hless : ∀ k ∈ A.map (·.1), k < s :=
      fun k hk => (List.pairwise_append.mp hpw).2.2 k hk s (.head _)
    have hstep : rm_step M ⟨wd, A, c⟩ s =
        ⟨(M.commits.getD s defaultGCommit).tree, A ++ [(s, pureDict M s)], c + 1⟩ := by
      rw [rm_step]
      simp only [hnone, Option.isSome_none]
      rw [if_neg (by simp)]
      rw [commit_metrics]
      simp only [getD_ok_of_allOk M hok s, if_pos rfl]
      rw [sortedInsert_append A s _ hless]
      rfl
    simp only [List.foldl_cons, hstep]
    have hpw' : (((A ++ [(s, pureDict M s)]).map (·.1)) ++ L').Pairwise (· < ·) := by
      simp only [List.map_append, List.map_cons, List.map_nil, List.append_assoc,
        List.singleton_append]
      simpa using hpw
    rw [ih (A ++ [(s, pureDict M s)]) _ _ hpw']
    simp

theorem range_metrics_pure (M : MetricsObj) (hok : allOk M) (N : Nat) (hN : 1 ≤ N)
    (st0 : SearchState) (h0 : st0.metrics = []) :
    (range_metrics M 0 (N - 1) 1 st0).metrics =
      (pyRange 0 (N - 1) 1 ++ [N - 1]).map (fun s => (s, pureDict M s)) := by
  rw [range_metrics]
  obtain ⟨wd, mets, c⟩ := st0
  simp only at h0
  subst h0
  exact rm_foldl_pure M hok _ [] wd c (by
    simp only [List.map_nil, List.nil_append]
    rw [pyRange]
    apply List.pairwise_append.mpr
    refine ⟨?_, ?_, ?_⟩
    · exact List.pairwise_lt_range' 0 _ 1 (by omega)
    · simp
    · intro a ha b hb
      simp only [List.mem_singleton] at hb
      subst hb
      have := List.mem_range'.mp ha
      obtain ⟨i, hi, hai⟩ := this
      omega)

theorem sampleList_sorted (N : Nat) (hN : 1 ≤ N) :
    (pyRange 0 (N - 1) 1 ++ [N - 1]).Pairwise (· < ·) := by
  rw [pyRange]
  apply List.pairwise_append.mpr
  refine ⟨?_, ?_, ?_⟩
  · exact List.pairwise_lt_range' 0 _ 1 (by omega)
  · simp
  · intro a ha b hb
    simp only [List.mem_singleton] at hb
    subst hb
    obtain ⟨i, hi, hai⟩ := List.mem_range'.mp ha
    omega

theorem sampleList_mem (N : Nat) (hN : 1 ≤ N) (i : Nat) :
    i ∈ pyRange 0 (N - 1) 1 ++ [N - 1] ↔ i < N := by
  rw [pyRange]
  simp only [List.mem_append, List.mem_singleton, List.mem_range']
  constructor
  · rintro (⟨j, hj, hij⟩ | h) <;> omega
  · intro h
    rcases Nat.lt_or_ge i (N - 1) with h' | h'
    · exact Or.inl ⟨i, by omega, by omega⟩
    · exact Or.inr (by omega)

theorem dictAt_eq_some_of_mem (m : List (Nat × List (String × Nat)))
    (hnd : (m.map (·.1)).Nodup) (s : Nat) (d : List (String × Nat)) (h : (s, d) ∈ m) :
    dictAt m s = some d := by
  have hkey : s ∈ m.map (·.1) := by
    simpa using List.mem_map_of_mem (·.1) h
  have hsome : (dictAt m s).isSome := (dictAt_isSome_iff_mem m s).mpr hkey
  obtain ⟨d', hd'⟩ := Option.isSome_iff_exists.mp hsome
  have hmem' : (s, d') ∈ m := dictAt_mem m s d' hd'
  have := pairs_eq_of_fst_eq m hnd (s, d') (s, d) hmem' h rfl
  rw [hd']
  exact congrArg some (congrArg Prod.snd this)

theorem cc_loop_one (M : MetricsObj) (ratio length : Nat) (metric : String) (fn : CFn)
    (left right : Nat) (st : SearchState) :
    cc_loop M ratio length metric fn left right 1 st =
      (range_metrics M left right 1 st,
       some ((closest_range (range_metrics M left right 1 st).metrics length metric fn).2.2.1,
             (closest_range (range_metrics M left right 1 st).metrics length metric fn).2.2.2)) := by
  rw [cc_loop]
  simp

/-- C1: with `N ≥ 1` commits, `ratio ≥ N` and every checkout succeeding, the
search memoizes the metrics record of every commit `0..N-1` (and nothing
else) and returns a record whose `diff` is the true extremum of the metric
over all commits. -/
theorem claim_C1_full_scan (M : MetricsObj) (ratio length : Nat) (metric : String)
    (fn : CFn) (hN : 1 ≤ M.commits.length) (hratio : M.commits.length ≤ ratio)
    (hok : allOk M) :
    ∃ r : MostSimilar,
      (closest_commit M ratio length metric fn).2 = .ok r ∧
      (∀ i < M.commits.length,
        dictAt (closest_commit M ratio length metric fn).1.metrics i =
          some (pureDict M i)) ∧
      (∀ p ∈ (closest_commit M ratio length metric fn).1.metrics,
        p.1 < M.commits.length ∧ p.2 = pureDict M p.1) ∧
      r.sequence < M.commits.length ∧
      r.diff = metricVal M metric r.sequence ∧
      (∀ i < M.commits.length, cle fn r.diff (metricVal M metric i)) := by
  have hstep : ceilDiv M.commits.length ratio = 1 :=
    ceilDiv_eq_one _ _ hN hratio
  rw [closest_commit]
  simp only [hstep, cc_loop_one]
  set N := M.commits.length with hNdef
  set st' := range_metrics M 0 (N - 1) 1
    { workdir := M.workdir0, metrics := [], checkouts := 0 } with hst'
  set S := pyRange 0 (N - 1) 1 ++ [N - 1] with hS
  have hmet : st'.metrics = S.map (fun s => (s, pureDict M s)) :=
    range_metrics_pure M hok N hN _ rfl
  have hSsorted : S.Pairwise (· < ·) := sampleList_sorted N hN
  have hSmem : ∀ i, i ∈ S ↔ i < N := sampleList_mem N hN
  have hSne : S ≠ [] := by
    rw [hS]
    intro h
    have := List.append_eq_nil.mp h
    simp at this
  have hkeys : st'.metrics.map (·.1) = S := by
    rw [hmet, List.map_map]
    have : ((fun p : Nat × List (String × Nat) => p.1) ∘
        (fun s : Nat => (s, pureDict M s))) = id := rfl
    rw [this, List.map_id]
  have hsorted' : (st'.metrics.map (·.1)).Pairwise (· < ·) := by
    rw [hkeys]; exact hSsorted
  have hne : st'.metrics ≠ [] := by
    rw [hmet]
    intro h
    exact hSne (List.map_eq_nil.mp h)
  have hpairs : st'.metrics.map (fun p => (p.1, mlookupD p.2 metric)) =
      S.map (fun s => (s, metricVal M metric s)) := by
    rw [hmet, List.map_map]
    rfl
  obtain ⟨hmemb, hext, _⟩ := closest_range_spec st'.metrics length metric fn hne hsorted'
  rw [hpairs] at hmemb hext
  obtain ⟨s, hsS, hse⟩ := List.mem_map.mp hmemb
  refine ⟨_, rfl, ?_, ?_, ?_, ?_, ?_⟩
  · intro i hi
    apply dictAt_eq_some_of_mem _ (hsorted'.imp (fun h => Nat.ne_of_lt h))
    rw [hmet]
    exact List.mem_map_of_mem _ ((hSmem i).mpr hi)
  · intro p hp
    rw [hmet] at hp
    obtain ⟨t, htS, hte⟩ := List.mem_map.mp hp
    rw [← hte]
    exact ⟨(hSmem t).mp htS, rfl⟩
  · simp only
    rw [← congrArg Prod.fst hse]
    exact (hSmem s).mp hsS
  · simp only
    rw [← congrArg Prod.fst hse, ← congrArg Prod.snd hse]
  · intro i hi
    have h3 := hext (i, metricVal M metric i)
      (List.mem_map_of_mem _ ((hSmem i).mpr hi))
    simpa using h3

/-- Witness for C1 at the two-commit engine `exMOk` with `ratio = 2`: the
hypotheses hold and the search returns the extremal record. -/
theorem claim_C1_full_scan_witness :
    (1 ≤ exMOk.commits.length ∧ exMOk.commits.length ≤ 2 ∧ allOk exMOk) ∧
    ∃ r : MostSimilar,
      (closest_commit exMOk 2 1 "diff_files" .cmin).2 = .ok r ∧
      (∀ i < exMOk.commits.length,
        dictAt (closest_commit exMOk 2 1 "diff_files" .cmin).1.metrics i =
          some (pureDict exMOk i)) ∧
      (∀ p ∈ (closest_commit exMOk 2 1 "diff_files" .cmin).1.metrics,
        p.1 < exMOk.commits.length ∧ p.2 = pureDict exMOk p.1) ∧
      r.sequence < exMOk.commits.length ∧
      r.diff = metricVal exMOk "diff_files" r.sequence ∧
      (∀ i < exMOk.commits.length, cle .cmin r.diff (metricVal exMOk "diff_files" i)) :=
  ⟨⟨by decide, by decide, by unfold allOk; decide⟩,
   claim_C1_full_scan exMOk 2 1 "diff_files" .cmin (by decide) (by decide)
     (by unfold allOk; decide)⟩
